import Mathlib

/-!
# A model of `fsv::filtered_string_view`

The C++ class is a pointer/length pair plus a predicate over `const char&`.
The model keeps the three fields and makes the memory the pointers point into
explicit:

* memory is a finite array of cells, a cell that is not mapped reads as
  undefined behaviour, and so does address `0` (the null pointer);
* a `const char&` is a character together with its address, because the
  predicate built by `substr` compares addresses;
* every function that reads memory, throws or loops returns an `Except Fault`;
* `int` arguments are `Int`; the narrowing conversion `static_cast<int>` and
  the `int` subtraction in `substr` wrap modulo `2^32`;
* `std::strlen`, `std::advance`, `std::distance` and `std::search` are written
  out as the loops of their reference implementations, over the iterator of
  the class;
* a `std::string` that is local to a block of `split` has gone when `split`
  returns, so the views built over it point to cells that are not mapped.
-/

namespace fsv

/-- Ways in which a call fails to return a value. -/
inductive Fault
  | undefined
  | timeout
  | domain_error (index : Int)
  deriving DecidableEq, Repr

deriving instance DecidableEq for Except

/-- Raw memory: cell `p` holds `m[p]`; `none` is an unmapped cell. -/
abbrev Mem := List (Option Char)

/-- The terminator `'\0'`. -/
def NUL : Char := Char.ofNat 0

/-- A `const char&`: the character and the address it lives at. -/
structure CharRef where
  addr : Nat
  val : Char
  deriving DecidableEq, Repr

/-- Source: `using filter = std::function<bool(const char&)>`. -/
abbrev filter := CharRef → Bool

/-- Source: `*p`: reading through a null pointer or an unmapped cell is undefined. -/
def deref (m : Mem) (p : Nat) : Except Fault CharRef :=
  if p = 0 then .error .undefined
  else
    match m.get? p with
    | some (some c) => .ok ⟨p, c⟩
    | _ => .error .undefined

/-- Source: `filtered_string_view::default_predicate`. -/
def default_predicate : filter := fun _ => true

/-- The private members `data_`, `size_`, `pred_`. -/
structure filtered_string_view where
  data_ : Nat
  size_ : Nat
  pred_ : filter

/-- The private members `pc_`, `pred_` of `filtered_string_view::iter`. -/
structure iter where
  pc_ : Nat
  pred_ : filter

/-- Source: `std::strlen`, reading until the first `'\0'`. Every iteration reads one
more cell, so `m.length` iterations always suffice. -/
def strlenLoop (m : Mem) : Nat → Nat → Nat → Except Fault Nat
  | 0, _, _ => .error .undefined
  | fuel + 1, p, n => do
    let c ← deref m p
    if c.val = NUL then pure n else strlenLoop m fuel (p + 1) (n + 1)

def strlen (m : Mem) (s : Nat) : Except Fault Nat :=
  strlenLoop m m.length s 0

namespace filtered_string_view

/-- Source: `filtered_string_view()`. -/
def mk_default : filtered_string_view :=
  ⟨0, 0, default_predicate⟩

/-- Source: `filtered_string_view(const std::string& s, filter predicate)`, the string
given by `s.data()` and `s.size()`. -/
def of_string (s_data s_size : Nat) (predicate : filter) : filtered_string_view :=
  ⟨s_data, s_size, predicate⟩

/-- Source: `filtered_string_view(const char* s, filter predicate)`. -/
def of_cstr (m : Mem) (s : Nat) (predicate : filter) : Except Fault filtered_string_view := do
  let n ← strlen m s
  pure ⟨s, n, predicate⟩

/-- The loop of `operator[]`; after it, `return data_[0]`. -/
def subscriptLoop (m : Mem) (v : filtered_string_view) (n : Int) :
    Nat → Nat → Int → Except Fault CharRef
  | 0, _, _ => deref m v.data_
  | k + 1, i, filtered_index => do
    let c ← deref m (v.data_ + i)
    if v.pred_ c then
      if filtered_index = n then pure c
      else subscriptLoop m v n k (i + 1) (filtered_index + 1)
    else subscriptLoop m v n k (i + 1) filtered_index

/-- Source: `operator[](int n)`. -/
def subscript (m : Mem) (v : filtered_string_view) (n : Int) : Except Fault CharRef :=
  subscriptLoop m v n v.size_ 0 0

/-- The loop shared by `operator std::string` and `size`: push every accepted
character. -/
def pushLoop (m : Mem) (v : filtered_string_view) :
    Nat → Nat → List Char → Except Fault (List Char)
  | 0, _, str => pure str
  | k + 1, i, str => do
    let c ← deref m (v.data_ + i)
    if v.pred_ c then pushLoop m v k (i + 1) (str ++ [c.val])
    else pushLoop m v k (i + 1) str

/-- Source: `explicit operator std::string()`. -/
def to_string (m : Mem) (v : filtered_string_view) : Except Fault (List Char) :=
  pushLoop m v v.size_ 0 []

/-- Source: `data()`. -/
def data (v : filtered_string_view) : Nat := v.data_

/-- Source: `predicate()`. -/
def predicate (v : filtered_string_view) : filter := v.pred_

/-- The loop of `at`; after it, the throw. -/
def atLoop (m : Mem) (v : filtered_string_view) (index : Int) :
    Nat → Nat → Int → Except Fault CharRef
  | 0, _, _ => .error (.domain_error index)
  | k + 1, i, n => do
    let c ← deref m (v.data_ + i)
    if v.pred_ c then
      if n = index then pure c
      else atLoop m v index k (i + 1) (n + 1)
    else atLoop m v index k (i + 1) n

/-- Source: `at(int index)`. -/
def at_ (m : Mem) (v : filtered_string_view) (index : Int) : Except Fault CharRef :=
  if index < 0 then .error (.domain_error index)
  else atLoop m v index v.size_ 0 0

/-- Source: `size()`. -/
def size (m : Mem) (v : filtered_string_view) : Except Fault Nat := do
  let str ← pushLoop m v v.size_ 0 []
  pure str.length

/-- The loop of `empty`. -/
def emptyLoop (m : Mem) (v : filtered_string_view) : Nat → Nat → Except Fault Bool
  | 0, _ => pure true
  | k + 1, i => do
    let c ← deref m (v.data_ + i)
    if v.pred_ c then pure false else emptyLoop m v k (i + 1)

/-- Source: `empty()`. -/
def empty (m : Mem) (v : filtered_string_view) : Except Fault Bool :=
  emptyLoop m v v.size_ 0

end filtered_string_view

/-! ## The iterator -/

namespace iter

/-- Source: `operator*`. -/
def star (m : Mem) (it : iter) : Except Fault CharRef :=
  deref m it.pc_

/-- The loop `while (*pc != '\0' && !pred(*pc)) pc++` of `operator++` and of
`begin`. Every iteration reads one more cell, so `m.length` iterations always
suffice. -/
def skipForward (m : Mem) (pred : filter) : Nat → Nat → Except Fault Nat
  | 0, _ => .error .undefined
  | fuel + 1, pc => do
    let c ← deref m pc
    if c.val ≠ NUL && !pred c then skipForward m pred fuel (pc + 1) else pure pc

/-- The loop `while (*pc != '\0' && !pred(*pc)) pc--` of `operator--`; it
reads one cell per iteration and the read at address `0` fails. -/
def skipBackward (m : Mem) (pred : filter) : Nat → Nat → Except Fault Nat
  | 0, _ => .error .undefined
  | fuel + 1, pc => do
    let c ← deref m pc
    if c.val ≠ NUL && !pred c then skipBackward m pred fuel (pc - 1) else pure pc

/-- Source: `operator++`. -/
def inc (m : Mem) (it : iter) : Except Fault iter := do
  let pc ← skipForward m it.pred_ m.length (it.pc_ + 1)
  pure ⟨pc, it.pred_⟩

/-- Source: `operator--`. -/
def dec (m : Mem) (it : iter) : Except Fault iter := do
  let pc ← skipBackward m it.pred_ it.pc_ (it.pc_ - 1)
  pure ⟨pc, it.pred_⟩

/-- Source: `operator==` on iterators: the raw positions only. -/
def eq (lhs rhs : iter) : Bool :=
  decide (lhs.pc_ = rhs.pc_)

end iter

namespace filtered_string_view

/-- Source: `begin()`. -/
def begin_ (m : Mem) (v : filtered_string_view) : Except Fault iter := do
  let pc ← iter.skipForward m v.pred_ m.length v.data_
  pure ⟨pc, v.pred_⟩

/-- Source: `end()`. -/
def end_ (v : filtered_string_view) : iter :=
  ⟨v.data_ + v.size_, v.pred_⟩

end filtered_string_view

/-! ## Standard library algorithms over the iterator -/

/-- Source: `std::advance(it, n)` for `n ≥ 0`: `n` increments. -/
def advanceForward (m : Mem) : Nat → iter → Except Fault iter
  | 0, it => pure it
  | n + 1, it => do
    let it1 ← it.inc m
    advanceForward m n it1

/-- Source: `std::advance(it, n)` for `n < 0`: `-n` decrements. -/
def advanceBackward (m : Mem) : Nat → iter → Except Fault iter
  | 0, it => pure it
  | n + 1, it => do
    let it1 ← it.dec m
    advanceBackward m n it1

/-- Source: `std::advance(it, n)` on a bidirectional iterator. -/
def advance (m : Mem) (it : iter) (n : Int) : Except Fault iter :=
  if 0 ≤ n then advanceForward m n.toNat it else advanceBackward m (-n).toNat it

/-- The loop `while (first != last) { ++first; ++n; }` of `std::distance`. An
increment reads a cell further on, so `m.length` increments cannot succeed. -/
def distanceLoop (m : Mem) (last : iter) : Nat → iter → Nat → Except Fault Nat
  | 0, _, _ => .error .undefined
  | fuel + 1, first, n =>
    if first.eq last then pure n
    else do
      let first1 ← first.inc m
      distanceLoop m last fuel first1 (n + 1)

/-- Source: `std::distance(first, last)`. -/
def distance (m : Mem) (first last : iter) : Except Fault Nat :=
  distanceLoop m last (m.length + 1) first 0

/-- The loop `for (auto i = first; i != last; i++) str += *i;`. -/
def appendRange (m : Mem) (last : iter) : Nat → iter → List Char → Except Fault (List Char)
  | 0, _, _ => .error .undefined
  | fuel + 1, i, str =>
    if i.eq last then pure str
    else do
      let c ← i.star m
      let i1 ← i.inc m
      appendRange m last fuel i1 (str ++ [c.val])

/-- How one attempt of `std::search` at a position ends. -/
inductive Probe
  | found
  | exhausted
  | mismatch
  deriving DecidableEq, Repr

/-- The inner loop of `std::search`:
`for (s_it = s_first; ; ++it, ++s_it) { if (s_it == s_last) return first;
if (it == last) return last; if (!(*it == *s_it)) break; }`. -/
def searchProbe (m : Mem) (last s_last : iter) : Nat → iter → iter → Except Fault Probe
  | 0, _, _ => .error .undefined
  | fuel + 1, it, s_it =>
    if s_it.eq s_last then pure .found
    else if it.eq last then pure .exhausted
    else do
      let a ← it.star m
      let b ← s_it.star m
      if a.val ≠ b.val then pure .mismatch
      else do
        let it1 ← it.inc m
        let s_it1 ← s_it.inc m
        searchProbe m last s_last fuel it1 s_it1

/-- The outer loop of `std::search`: `while (true) { ...; ++first; }`. -/
def searchLoop (m : Mem) (last s_first s_last : iter) : Nat → iter → Except Fault iter
  | 0, _ => .error .undefined
  | fuel + 1, first => do
    let r ← searchProbe m last s_last (m.length + 1) first s_first
    match r with
    | .found => pure first
    | .exhausted => pure last
    | .mismatch => do
      let first1 ← first.inc m
      searchLoop m last s_first s_last fuel first1

/-- Source: `std::search(first, last, s_first, s_last)`. -/
def search (m : Mem) (first last s_first s_last : iter) : Except Fault iter :=
  searchLoop m last s_first s_last (m.length + 1) first

/-! ## The free functions -/

/-- Source: `compose`: the predicates are folded left to right into one conjunction and
the result is built by the `const char*` constructor. -/
def compose (m : Mem) (filtered_sv : filtered_string_view) (filts : List filter) :
    Except Fault filtered_string_view :=
  let new_pred : filter :=
    filts.foldl (fun prev_pred fl => fun c => prev_pred c && fl c) filtered_sv.predicate
  filtered_string_view.of_cstr m filtered_sv.data new_pred

/-- Where the characters of a `std::string` declared inside `split` live. The
strings `fsv_str` and `fsv_str2` are declared inside the blocks of the loop
body and are destroyed when their block is left, before `split` returns, while
the views pushed by `result.push_back({fsv_str, fsv.predicate()})` keep
`fsv_str.data()`. In the memory the caller reads the returned views in, that
address is not mapped: the model takes the address after every cell of the
memory and one more unmapped cell. -/
def local_string_data (m : Mem) : Nat :=
  m.length + 1

/-- The body of `while (it != fsv.end())` in `split`, `fuel` iterations at
most; `empty_literal` is the address of the string literal `""`. -/
def splitLoop (m : Mem) (empty_literal : Nat) (fsv : filtered_string_view)
    (tok_begin tok_end end1 : iter) :
    Nat → iter → iter → List filtered_string_view → Except Fault (List filtered_string_view)
  | 0, _, _, _ => .error .timeout
  | fuel + 1, start, it, result =>
    if it.eq fsv.end_ then pure result
    else do
      let match_ ← search m it fsv.end_ tok_begin tok_end
      if match_.eq fsv.end_ then do
        let fsv_str ← appendRange m fsv.end_ (m.length + 1) start []
        let result1 :=
          result ++ [filtered_string_view.of_string (local_string_data m) fsv_str.length fsv.predicate]
        if match_.eq end1 && !result1.isEmpty then do
          let d ← distance m tok_begin tok_end
          if d > 0 then do
            let e ← filtered_string_view.of_cstr m empty_literal fsv.predicate
            pure (result1 ++ [e])
          else pure result1
        else pure result1
      else if match_.eq end1 then do
        let fsv_str ← appendRange m end1 (m.length + 1) start []
        let result1 :=
          result ++ [filtered_string_view.of_string (local_string_data m) fsv_str.length fsv.predicate]
        if match_.eq end1 && !result1.isEmpty then do
          let d ← distance m tok_begin tok_end
          if d > 0 then do
            let e ← filtered_string_view.of_cstr m empty_literal fsv.predicate
            pure (result1 ++ [e])
          else pure result1
        else pure result1
      else do
        let fsv_str2 ← appendRange m match_ (m.length + 1) start []
        let result1 :=
          result ++ [filtered_string_view.of_string (local_string_data m) fsv_str2.length fsv.predicate]
        let d ← distance m tok_begin tok_end
        let it1 ← advance m match_ d
        let d1 ← distance m tok_begin tok_end
        let start1 ← advance m match_ d1
        splitLoop m empty_literal fsv tok_begin tok_end end1 fuel start1 it1 result1

/-- Source: `split(fsv, tok)`, its main loop run for `fuel` iterations at most. -/
def split (m : Mem) (empty_literal : Nat) (fuel : Nat) (fsv tok : filtered_string_view) :
    Except Fault (List filtered_string_view) := do
  let start ← fsv.begin_ m
  let end1 ← fsv.end_.dec m
  let tok_begin ← tok.begin_ m
  let tok_end := tok.end_
  let it ← fsv.begin_ m
  splitLoop m empty_literal fsv tok_begin tok_end end1 fuel start it []

/-- An `int` holding the value `z` after wrapping to 32 bits. -/
def wrap32 (z : Int) : Int :=
  (z + 2 ^ 31) % 2 ^ 32 - 2 ^ 31

/-- Source: `substr(fsv, pos, count)`; `empty_literal` is the address of the string
literal `""`. -/
def substr (m : Mem) (empty_literal : Nat) (fsv : filtered_string_view) (pos count : Int) :
    Except Fault filtered_string_view := do
  let n ← fsv.size m
  let size : Int := wrap32 n
  let rcount : Int :=
    if count ≤ 0 ∨ count > wrap32 (size - pos) then wrap32 (size - pos) else count
  if pos < 0 ∨ pos ≥ size then
    filtered_string_view.of_cstr m empty_literal fsv.predicate
  else do
    let b ← fsv.begin_ m
    let start_it ← advance m b pos
    let end_it ← advance m start_it rcount
    filtered_string_view.of_cstr m (fsv.data + pos.toNat)
      (fun c => decide (c.addr ≥ start_it.pc_) && decide (c.addr < end_it.pc_) && fsv.predicate c)

/-! ## Copy, move, comparison -/

/-- Source: `std::exchange(obj, new_value)`: the object after the call and the
returned old value. -/
def exchange {α : Type} (obj new_value : α) : α × α :=
  (new_value, obj)

/-- The move constructor: the new object and `other` after the call. -/
def move_construct (other : filtered_string_view) : filtered_string_view × filtered_string_view :=
  let d := exchange other.data_ 0
  let n := exchange other.size_ 0
  let p := exchange other.pred_ default_predicate
  (⟨d.2, n.2, p.2⟩, ⟨d.1, n.1, p.1⟩)

/-- The objects of the class that are alive, by address. -/
abbrev Objects := Nat → filtered_string_view

/-- The move assignment `*this = std::move(other)`, on the objects at the
addresses `this` and `other`, field by field as in the source; the two
addresses may be the same. -/
def move_assign (st : Objects) (this other : Nat) : Objects :=
  let d := exchange (st other).data_ 0
  let st1 := Function.update st other { st other with data_ := d.1 }
  let st2 := Function.update st1 this { st1 this with data_ := d.2 }
  let n := exchange (st2 other).size_ 0
  let st3 := Function.update st2 other { st2 other with size_ := n.1 }
  let st4 := Function.update st3 this { st3 this with size_ := n.2 }
  let p := exchange (st4 other).pred_ default_predicate
  let st5 := Function.update st4 other { st4 other with pred_ := p.1 }
  Function.update st5 this { st5 this with pred_ := p.2 }

/-- The copy assignment `*this = other`, with its check for self-assignment. -/
def copy_assign (st : Objects) (this other : Nat) : Objects :=
  if other = this then st
  else Function.update st this ⟨(st other).data_, (st other).size_, (st other).pred_⟩

/-- Source: `std::char_traits<char>::compare` on two runs of the same length: the
first position where the characters differ decides. -/
def traits_compare : List Char → List Char → Ordering
  | a :: s1, b :: s2 =>
    if a < b then .lt else if b < a then .gt else traits_compare s1 s2
  | _, _ => .eq

/-- Source: `std::string::compare`, which `operator<=>` on strings returns: the
common length is compared with `traits_compare`, then the lengths. -/
def string_compare (s1 s2 : List Char) : Ordering :=
  let rlen := min s1.length s2.length
  let r := traits_compare (s1.take rlen) (s2.take rlen)
  if r = .eq then compare s1.length s2.length else r

/-- Source: `operator==` on views. -/
def operator_eq (m : Mem) (lhs rhs : filtered_string_view) : Except Fault Bool := do
  let filtered_str1 ← lhs.to_string m
  let filtered_str2 ← rhs.to_string m
  pure (decide (filtered_str1 = filtered_str2))

/-- Source: `operator!=` on views. -/
def operator_ne (m : Mem) (lhs rhs : filtered_string_view) : Except Fault Bool := do
  let r ← operator_eq m lhs rhs
  pure (!r)

/-- Source: `operator<=>` on views. -/
def operator_spaceship (m : Mem) (lhs rhs : filtered_string_view) : Except Fault Ordering := do
  let filtered_str1 ← lhs.to_string m
  let filtered_str2 ← rhs.to_string m
  pure (string_compare filtered_str1 filtered_str2)

/-- The cells of a `std::string` that holds `s`: an unmapped cell, the
characters, the terminator. -/
def string_storage (s : List Char) : Mem :=
  none :: (s ++ [NUL]).map some

/-- The memory once a `std::string` holding `s` has been constructed; its
`data()` is `local_string_data m`. -/
def with_string (m : Mem) (s : List Char) : Mem :=
  m ++ string_storage s

/-! ## Reverse iteration -/

/-- Source: `std::reverse_iterator<iter>`: its member `current`. -/
structure reverse_iterator where
  current : iter

namespace reverse_iterator

/-- Source: `operator*`: `Iter tmp = current; return *--tmp;`. -/
def star (m : Mem) (r : reverse_iterator) : Except Fault CharRef := do
  let tmp ← r.current.dec m
  tmp.star m

/-- Source: `operator++`: `--current`. -/
def inc (m : Mem) (r : reverse_iterator) : Except Fault reverse_iterator := do
  let c ← r.current.dec m
  pure ⟨c⟩

/-- Source: `operator==`: the underlying iterators are compared. -/
def eq (lhs rhs : reverse_iterator) : Bool :=
  lhs.current.eq rhs.current

end reverse_iterator

namespace filtered_string_view

/-- Source: `rbegin()`. -/
def rbegin (v : filtered_string_view) : reverse_iterator :=
  ⟨v.end_⟩

/-- Source: `rend()`. -/
def rend (m : Mem) (v : filtered_string_view) : Except Fault reverse_iterator := do
  let b ← v.begin_ m
  pure ⟨b⟩

end filtered_string_view

/-- The loop `for (; first != last; ++first) out.push_back(*first);` over
reverse iterators, as run by `std::vector<char>{s.rbegin(), s.rend()}`. -/
def appendRangeReverse (m : Mem) (last : reverse_iterator) :
    Nat → reverse_iterator → List Char → Except Fault (List Char)
  | 0, _, _ => .error .undefined
  | fuel + 1, first, out =>
    if first.eq last then pure out
    else do
      let c ← first.star m
      let first1 ← first.inc m
      appendRangeReverse m last fuel first1 (out ++ [c.val])

/-! ## What the claims speak about -/

/-- The references to the characters of a buffer `l` stored from address `p` on. -/
def refsAt : Nat → List Char → List CharRef
  | _, [] => []
  | p, c :: l => ⟨p, c⟩ :: refsAt (p + 1) l

/-- Memory `m` holds the characters `l` from address `p` on. -/
def MemHolds (m : Mem) : Nat → List Char → Prop
  | _, [] => True
  | p, c :: l => deref m p = .ok ⟨p, c⟩ ∧ MemHolds m (p + 1) l

instance MemHolds.dec (m : Mem) : (p : Nat) → (l : List Char) → Decidable (MemHolds m p l)
  | _, [] => isTrue trivial
  | p, c :: l =>
    @instDecidableAnd (deref m p = .ok ⟨p, c⟩) (MemHolds m (p + 1) l) _ (MemHolds.dec m (p + 1) l)

/-- View `v` is a view over the buffer `B`: `size_` characters, alive in `m`. -/
def Backed (m : Mem) (v : filtered_string_view) (B : List Char) : Prop :=
  v.size_ = B.length ∧ MemHolds m v.data_ B

instance (m : Mem) (v : filtered_string_view) (B : List Char) : Decidable (Backed m v B) := by
  unfold Backed
  exact inferInstance

/-- The references to the characters of `B` that satisfy the predicate of `v`,
in raw order. -/
def filteredRefs (v : filtered_string_view) (B : List Char) : List CharRef :=
  (refsAt v.data_ B).filter v.pred_

/-- The filtered sequence of a view over `B`. -/
def filteredSeq (v : filtered_string_view) (B : List Char) : List Char :=
  (filteredRefs v B).map CharRef.val

/-- The view `v` is a view over the buffer `B`, and `B` is followed in memory
by the terminator, as for the characters of a `std::string` or a C string. -/
def Terminated (m : Mem) (v : filtered_string_view) (B : List Char) : Prop :=
  v.size_ = B.length ∧ MemHolds m v.data_ (B ++ [NUL])

instance (m : Mem) (v : filtered_string_view) (B : List Char) : Decidable (Terminated m v B) := by
  unfold Terminated
  exact inferInstance

/-- Every `'\0'` stored inside the buffer `B` of `v` is accepted by the
predicate of `v`; it holds in particular when `B` has no `'\0'` at all. -/
def NulAccepted (v : filtered_string_view) (B : List Char) : Prop :=
  ∀ r ∈ refsAt v.data_ B, r.val = NUL → v.pred_ r = true

instance (v : filtered_string_view) (B : List Char) : Decidable (NulAccepted v B) := by
  unfold NulAccepted
  exact inferInstance

/-- An iterator at address `p` of a view that ends at address `e`: the raw
characters from `p` to `e` are followed by the terminator, every `'\0'` among
them is accepted, the first of them (if any) is accepted, and the accepted
ones are `F`. -/
def Facing (m : Mem) (pred : filter) (e p : Nat) (F : List CharRef) : Prop :=
  ∃ l : List Char, MemHolds m p (l ++ [NUL]) ∧
    (∀ r ∈ refsAt p l, r.val = NUL → pred r = true) ∧
    p + l.length = e ∧ (refsAt p l).filter pred = F ∧
    (∀ c l1, l = c :: l1 → pred ⟨p, c⟩ = true)

/-- The lexicographic three-way comparison of two sequences: the first
position where they differ decides; a proper initial part is smaller. -/
def lexCompare : List Char → List Char → Ordering
  | [], [] => .eq
  | [], _ :: _ => .lt
  | _ :: _, [] => .gt
  | a :: s1, b :: s2 =>
    if a < b then .lt else if b < a then .gt else lexCompare s1 s2

/-- An iterator at address `p` of a view whose buffer starts at address `d`:
the raw characters from `d` up to `p` are in memory, every `'\0'` among them is
accepted, and the accepted ones are `F`. -/
def Behind (m : Mem) (pred : filter) (d p : Nat) (F : List CharRef) : Prop :=
  ∃ l : List Char, MemHolds m d l ∧
    (∀ r ∈ refsAt d l, r.val = NUL → pred r = true) ∧
    d + l.length = p ∧ (refsAt d l).filter pred = F

/-- Where an iterator of `v` may rest: at the end sentinel or on a character of
the buffer that the predicate accepts. -/
def RestsWell (m : Mem) (v : filtered_string_view) (it : iter) : Prop :=
  it.pc_ = v.data_ + v.size_ ∨
    (v.data_ ≤ it.pc_ ∧ it.pc_ < v.data_ + v.size_ ∧
      ∃ c, deref m it.pc_ = .ok c ∧ v.pred_ c = true)

/-- What one attempt of `std::search` comes to, told from the accepted
characters `F` in front of the iterator and those `G` of the token: the token
is found when `G` runs out first, the attempt is exhausted when `F` does, and
it is a mismatch at the first pair of different characters. -/
def probeOutcome : List CharRef → List CharRef → Probe
  | _, [] => .found
  | [], _ :: _ => .exhausted
  | f :: F, g :: G => if f.val ≠ g.val then .mismatch else probeOutcome F G

/-- The sequence `s` contains the sequence `t` as a contiguous run. -/
def ContainsRun (t s : List Char) : Prop :=
  ∃ a b : List Char, s = a ++ t ++ b

/-- The predicate `pred`, widened to accept every `'\0'`: the scans of the
iterator stop exactly where it holds. -/
def orNul (pred : filter) : filter :=
  fun c => decide (c.val = NUL) || pred c

/-! ## Memories used in examples -/

/-- The C strings "cat", "xax", "xx", "x" and "", each after an unmapped cell. -/
def memTests : Mem :=
  [none, some 'c', some 'a', some 't', some NUL, none, some 'x', some 'a', some 'x', some NUL,
   none, some 'x', some 'x', some NUL, none, some 'x', some NUL, none, some NUL]

/-- The predicate of the test "implicit string construct with predicate". -/
def onlyA : filter := fun c => c.val = 'a'

/-- The characters of `std::string("a\0b", 3)` with their terminator, and the
string literal `""`. -/
def memEmbedded : Mem :=
  [none, some 'a', some NUL, some 'b', some NUL, none, some NUL]

/-- A predicate that rejects `'\0'`. -/
def notNul : filter := fun c => c.val ≠ NUL

/-- The C strings "cab" (address 1), "ab" (6), "a" (10), "x" (13) and the
string literal "" (16), each after an unmapped cell. -/
def memSplit : Mem :=
  [none, some 'c', some 'a', some 'b', some NUL, none, some 'a', some 'b', some NUL,
   none, some 'a', some NUL, none, some 'x', some NUL, none, some NUL]

/-- The cells of a C string: an unmapped cell, the characters, the terminator. -/
def cstr (s : String) : Mem :=
  none :: (s.toList ++ [NUL]).map some

/-- The strings of the tests on `substr`, `compose` and `std::prev`:
"Siberian Husky" (address 1), "Sled Dog" (17), "c / c++" (27), "tosa" (36)
and "" (42). -/
def memDogs : Mem :=
  cstr "Siberian Husky" ++ cstr "Sled Dog" ++ cstr "c / c++" ++ cstr "tosa" ++ cstr ""

/-- The strings of the tests on comparison, "aaa" (address 1) and "zzz" (6),
and of the reverse walk, "milo" (11). -/
def memCompare : Mem :=
  cstr "aaa" ++ cstr "zzz" ++ cstr "milo"

/-- The predicate of the test "Test again iterator begin and end". -/
def notIO : filter := fun c => !(c.val = 'i' || c.val = 'o')

/-- What a caller can observe of a returned view: `data()`, the raw length, and
the outcome of the string conversion. -/
def observe (m : Mem) (w : filtered_string_view) : Nat × Nat × Except Fault (List Char) :=
  (w.data_, w.size_, filtered_string_view.to_string m w)

/-! ## Lemmas -/

@[simp] theorem ok_bind {ε α β : Type} (a : α) (f : α → Except ε β) :
    (Except.ok a >>= f) = f a := rfl

@[simp] theorem error_bind {ε α β : Type} (e : ε) (f : α → Except ε β) :
    ((Except.error e : Except ε α) >>= f) = Except.error e := rfl

@[simp] theorem pure_eq_ok {ε α : Type} (a : α) : (pure a : Except ε α) = Except.ok a := rfl

theorem pushLoop_spec (m : Mem) (v : filtered_string_view) (l : List Char) :
    ∀ (i : Nat) (str : List Char), MemHolds m (v.data_ + i) l →
      filtered_string_view.pushLoop m v l.length i str
        = .ok (str ++ ((refsAt (v.data_ + i) l).filter v.pred_).map CharRef.val) := by
  induction l with
  | nil => intro i str _; simp [filtered_string_view.pushLoop, refsAt]
  | cons c l ih =>
    intro i str h
    obtain ⟨h1, h2⟩ := h
    have ih1 := ih (i + 1)
    rw [← Nat.add_assoc] at ih1
    simp only [List.length_cons, filtered_string_view.pushLoop, h1, ok_bind, refsAt]
    by_cases hp : v.pred_ ⟨v.data_ + i, c⟩
    · simp [hp, List.filter_cons, ih1 _ h2]
    · simp [hp, List.filter_cons, ih1 _ h2]

theorem atLoop_spec (m : Mem) (v : filtered_string_view) (index : Int) (l : List Char) :
    ∀ (i : Nat) (n : Int), n ≤ index → MemHolds m (v.data_ + i) l →
      filtered_string_view.atLoop m v index l.length i n
        = (match ((refsAt (v.data_ + i) l).filter v.pred_).get? (index - n).toNat with
           | some r => .ok r
           | none => .error (.domain_error index)) := by
  induction l with
  | nil => intro i n _ _; simp [filtered_string_view.atLoop, refsAt]
  | cons c l ih =>
    intro i n hn h
    obtain ⟨h1, h2⟩ := h
    have ih1 := ih (i + 1)
    rw [← Nat.add_assoc] at ih1
    simp only [List.length_cons, filtered_string_view.atLoop, h1, ok_bind, refsAt]
    by_cases hp : v.pred_ ⟨v.data_ + i, c⟩
    · by_cases he : n = index
      · subst he
        simp [hp, List.filter_cons]
      · have hlt : n + 1 ≤ index := by omega
        have hsub : (index - n).toNat = (index - (n + 1)).toNat + 1 := by omega
        simp [hp, he, List.filter_cons, ih1 _ hlt h2, hsub]
    · simp [hp, List.filter_cons, ih1 _ hn h2]

theorem subscriptLoop_spec (m : Mem) (v : filtered_string_view) (index : Int) (l : List Char) :
    ∀ (i : Nat) (n : Int), n ≤ index → MemHolds m (v.data_ + i) l →
      filtered_string_view.subscriptLoop m v index l.length i n
        = (match ((refsAt (v.data_ + i) l).filter v.pred_).get? (index - n).toNat with
           | some r => .ok r
           | none => deref m v.data_) := by
  induction l with
  | nil => intro i n _ _; simp [filtered_string_view.subscriptLoop, refsAt]
  | cons c l ih =>
    intro i n hn h
    obtain ⟨h1, h2⟩ := h
    have ih1 := ih (i + 1)
    rw [← Nat.add_assoc] at ih1
    simp only [List.length_cons, filtered_string_view.subscriptLoop, h1, ok_bind, refsAt]
    by_cases hp : v.pred_ ⟨v.data_ + i, c⟩
    · by_cases he : n = index
      · subst he
        simp [hp, List.filter_cons]
      · have hlt : n + 1 ≤ index := by omega
        have hsub : (index - n).toNat = (index - (n + 1)).toNat + 1 := by omega
        simp [hp, he, List.filter_cons, ih1 _ hlt h2, hsub]
    · simp [hp, List.filter_cons, ih1 _ hn h2]


theorem size_spec (m : Mem) (v : filtered_string_view) (B : List Char) (h : Backed m v B) :
    filtered_string_view.size m v = .ok (filteredRefs v B).length := by
  obtain ⟨hs, hm⟩ := h
  have := pushLoop_spec m v B 0 [] hm
  simp [filtered_string_view.size, hs, this, filteredRefs]

theorem to_string_spec (m : Mem) (v : filtered_string_view) (B : List Char) (h : Backed m v B) :
    filtered_string_view.to_string m v = .ok (filteredSeq v B) := by
  obtain ⟨hs, hm⟩ := h
  have := pushLoop_spec m v B 0 [] hm
  simp [filtered_string_view.to_string, hs, this, filteredSeq, filteredRefs]

theorem at_spec (m : Mem) (v : filtered_string_view) (B : List Char) (h : Backed m v B)
    (i : Int) (h0 : 0 ≤ i) :
    filtered_string_view.at_ m v i
      = (match (filteredRefs v B).get? i.toNat with
         | some r => .ok r
         | none => .error (.domain_error i)) := by
  obtain ⟨hs, hm⟩ := h
  have := atLoop_spec m v i B 0 0 h0 hm
  have hi : ¬ i < 0 := by omega
  simp only [filtered_string_view.at_, hi, if_false, hs, this, filteredRefs]
  simp

theorem subscript_spec (m : Mem) (v : filtered_string_view) (B : List Char) (h : Backed m v B)
    (i : Int) (h0 : 0 ≤ i) :
    filtered_string_view.subscript m v i
      = (match (filteredRefs v B).get? i.toNat with
         | some r => .ok r
         | none => deref m v.data_) := by
  obtain ⟨hs, hm⟩ := h
  have := subscriptLoop_spec m v i B 0 0 h0 hm
  simp only [filtered_string_view.subscript, hs, this, filteredRefs]
  simp

/-! ### Iterator positions -/

theorem deref_ok_lt (m : Mem) (p : Nat) (r : CharRef) (h : deref m p = .ok r) :
    p < m.length ∧ p ≠ 0 := by
  unfold deref at h
  by_cases hp : p = 0
  · simp [hp] at h
  · refine ⟨?_, hp⟩
    by_contra hlt
    have : m[p]? = none := List.getElem?_eq_none (by omega)
    simp [hp, this] at h

theorem memHolds_bound (m : Mem) (l : List Char) :
    ∀ p, MemHolds m p l → l ≠ [] → p + l.length ≤ m.length := by
  induction l with
  | nil => intro p _ h; exact absurd rfl h
  | cons c l ih =>
    intro p h _
    obtain ⟨h1, h2⟩ := h
    have hp := (deref_ok_lt m p _ h1).1
    by_cases hl : l = []
    · subst hl; simp; omega
    · have := ih (p + 1) h2 hl
      simp only [List.length_cons]; omega

theorem memHolds_append_left (m : Mem) (l1 l2 : List Char) :
    ∀ p, MemHolds m p (l1 ++ l2) → MemHolds m p l1 := by
  induction l1 with
  | nil => intro p _; trivial
  | cons c l ih =>
    intro p h
    exact ⟨h.1, ih (p + 1) h.2⟩

theorem memHolds_append_right (m : Mem) (l1 l2 : List Char) :
    ∀ p, MemHolds m p (l1 ++ l2) → MemHolds m (p + l1.length) l2 := by
  induction l1 with
  | nil => intro p h; simpa using h
  | cons c l ih =>
    intro p h
    have := ih (p + 1) h.2
    simp only [List.length_cons]
    rw [show p + (l.length + 1) = p + 1 + l.length by omega]
    exact this

theorem refsAt_addr (l : List Char) :
    ∀ p, ∀ r ∈ refsAt p l, p ≤ r.addr ∧ r.addr < p + l.length := by
  induction l with
  | nil => intro p r hr; simp [refsAt] at hr
  | cons c l ih =>
    intro p r hr
    simp only [refsAt, List.mem_cons] at hr
    rcases hr with rfl | hr
    · simp
    · have := ih (p + 1) r hr
      simp only [List.length_cons]; omega

theorem refsAt_length (l : List Char) : ∀ p, (refsAt p l).length = l.length := by
  induction l with
  | nil => intro p; rfl
  | cons c l ih => intro p; simp [refsAt, ih]

theorem refsAt_append (l1 l2 : List Char) :
    ∀ p, refsAt p (l1 ++ l2) = refsAt p l1 ++ refsAt (p + l1.length) l2 := by
  induction l1 with
  | nil => intro p; simp [refsAt]
  | cons c l ih =>
    intro p
    have h1 : p + (l.length + 1) = p + 1 + l.length := by omega
    rw [List.cons_append]
    simp only [refsAt, List.length_cons, List.cons_append]
    rw [ih (p + 1), h1]

/-- The forward scan stops at the first accepted character or at the end. -/
theorem skipForward_spec (m : Mem) (pred : filter) (l : List Char) :
    ∀ (p fuel : Nat), MemHolds m p (l ++ [NUL]) →
      (∀ r ∈ refsAt p l, r.val = NUL → pred r = true) → l.length + 1 ≤ fuel →
      ∃ p1, iter.skipForward m pred fuel p = .ok p1 ∧ p ≤ p1 ∧
        Facing m pred (p + l.length) p1 ((refsAt p l).filter pred) := by
  induction l with
  | nil =>
    intro p fuel h _ hf
    obtain ⟨k, rfl⟩ : ∃ k, fuel = k + 1 := ⟨fuel - 1, by simp at hf; omega⟩
    have h1 : deref m p = .ok ⟨p, NUL⟩ := h.1
    refine ⟨p, ?_, le_refl _, [], h, ?_, rfl, rfl, ?_⟩
    · simp [iter.skipForward, h1]
    · intro r hr; simp [refsAt] at hr
    · intro c l1 hc; cases hc
  | cons c l ih =>
    intro p fuel h hnul hf
    obtain ⟨k, rfl⟩ : ∃ k, fuel = k + 1 := ⟨fuel - 1, by simp at hf; omega⟩
    have h1 : deref m p = .ok ⟨p, c⟩ := h.1
    have h2 : MemHolds m (p + 1) (l ++ [NUL]) := h.2
    by_cases hacc : pred ⟨p, c⟩ = true
    · refine ⟨p, ?_, le_refl _, c :: l, h, hnul, rfl, rfl, ?_⟩
      · simp [iter.skipForward, h1, hacc]
      · intro c1 l1 hc; cases hc; exact hacc
    · have hc : c ≠ NUL := by
        intro hc
        exact hacc (hnul ⟨p, c⟩ (by simp [refsAt]) hc)
      have hnul1 : ∀ r ∈ refsAt (p + 1) l, r.val = NUL → pred r = true := by
        intro r hr; exact hnul r (by simp [refsAt, hr])
      obtain ⟨p1, hs, hle, hF⟩ := ih (p + 1) k h2 hnul1 (by simp at hf; omega)
      refine ⟨p1, ?_, by omega, ?_⟩
      · simp [iter.skipForward, h1, hacc, hc, hs]
      · have he : p + (c :: l).length = p + 1 + l.length := by simp; omega
        rw [he]
        simpa [refsAt, List.filter_cons, hacc] using hF

theorem facing_nil (m : Mem) (pred : filter) (e p : Nat) (h : Facing m pred e p []) :
    p = e := by
  obtain ⟨l, _, _, he, hF, hready⟩ := h
  cases l with
  | nil => simpa using he
  | cons c l1 =>
    have := hready c l1 rfl
    simp [refsAt, List.filter_cons, this] at hF

theorem facing_bound (m : Mem) (pred : filter) (e p : Nat) (F : List CharRef)
    (h : Facing m pred e p F) : F.length < m.length ∧ e < m.length ∧ p ≤ e := by
  obtain ⟨l, hm, _, he, hF, _⟩ := h
  have hb := memHolds_bound m (l ++ [NUL]) p hm (by simp)
  have hlen : F.length ≤ l.length := by
    rw [← hF, ← refsAt_length l p]
    exact List.length_filter_le _ _
  simp at hb
  omega

theorem facing_addr (m : Mem) (pred : filter) (e p : Nat) (F : List CharRef)
    (h : Facing m pred e p F) : ∀ r ∈ F, p ≤ r.addr ∧ r.addr < e ∧ pred r = true := by
  obtain ⟨l, _, _, he, hF, _⟩ := h
  intro r hr
  rw [← hF, List.mem_filter] at hr
  have := refsAt_addr l p r hr.1
  exact ⟨this.1, by omega, hr.2⟩

/-- At an accepted character: dereferencing yields it, and the increment moves
to the next accepted character or to the end. -/
theorem facing_cons (m : Mem) (pred : filter) (e p : Nat) (r : CharRef) (F : List CharRef)
    (h : Facing m pred e p (r :: F)) :
    r.addr = p ∧ deref m p = .ok r ∧ p < e ∧
      ∃ p1, iter.inc m ⟨p, pred⟩ = .ok ⟨p1, pred⟩ ∧ p < p1 ∧ Facing m pred e p1 F := by
  obtain ⟨l, hm, hnul, he, hF, hready⟩ := h
  cases l with
  | nil => simp [refsAt] at hF
  | cons c l1 =>
    have hacc := hready c l1 rfl
    simp only [refsAt, List.filter_cons, hacc, if_true, List.cons.injEq] at hF
    obtain ⟨hr, hF1⟩ := hF
    have h1 : deref m p = .ok ⟨p, c⟩ := hm.1
    have h2 : MemHolds m (p + 1) (l1 ++ [NUL]) := hm.2
    have hnul1 : ∀ r ∈ refsAt (p + 1) l1, r.val = NUL → pred r = true := by
      intro r hr; exact hnul r (by simp [refsAt, hr])
    have hb := memHolds_bound m (l1 ++ [NUL]) (p + 1) h2 (by simp)
    obtain ⟨p1, hs, hle, hFac⟩ :=
      skipForward_spec m pred l1 (p + 1) m.length h2 hnul1 (by simp at hb; omega)
    refine ⟨by rw [← hr], by rw [← hr]; exact h1, by simp at he; omega, p1, ?_, by omega, ?_⟩
    · simp [iter.inc, hs]
    · have he1 : p + 1 + l1.length = e := by simp at he; omega
      rw [he1, hF1] at hFac
      exact hFac

/-- Source: `begin()` of a terminated view faces the whole filtered sequence. -/
theorem begin_facing (m : Mem) (v : filtered_string_view) (B : List Char)
    (h : Terminated m v B) (hnul : NulAccepted v B) :
    ∃ p, v.begin_ m = .ok ⟨p, v.pred_⟩ ∧ v.data_ ≤ p ∧
      Facing m v.pred_ (v.data_ + v.size_) p (filteredRefs v B) := by
  obtain ⟨hs, hm⟩ := h
  have hb := memHolds_bound m (B ++ [NUL]) v.data_ hm (by simp)
  obtain ⟨p, hsk, hle, hF⟩ :=
    skipForward_spec m v.pred_ B v.data_ m.length hm hnul (by simp at hb; omega)
  refine ⟨p, ?_, hle, ?_⟩
  · simp [filtered_string_view.begin_, hsk]
  · rw [hs]; exact hF

/-- Source: `std::advance` by `i ≤ |F|` increments moves over the first `i` accepted
characters. -/
theorem advanceForward_spec (m : Mem) (pred : filter) (e : Nat) :
    ∀ (i p : Nat) (F : List CharRef), Facing m pred e p F → i ≤ F.length →
      ∃ p1, advanceForward m i ⟨p, pred⟩ = .ok ⟨p1, pred⟩ ∧ p + i ≤ p1 ∧
        Facing m pred e p1 (F.drop i) ∧ (∀ r ∈ F.take i, r.addr < p1) := by
  intro i
  induction i with
  | zero =>
    intro p F h _
    exact ⟨p, rfl, le_refl _, by simpa using h, by simp⟩
  | succ i ih =>
    intro p F h hi
    cases F with
    | nil => simp at hi
    | cons r F =>
      obtain ⟨hr, _, _, p1, hinc, hlt, hF1⟩ := facing_cons m pred e p r F h
      obtain ⟨p2, hadv, hle, hF2, hprev⟩ := ih p1 F hF1 (by simpa using hi)
      refine ⟨p2, ?_, by omega, by simpa using hF2, ?_⟩
      · simp [advanceForward, hinc, hadv]
      · intro r1 hr1
        simp only [List.take_succ_cons, List.mem_cons] at hr1
        rcases hr1 with rfl | hr1
        · omega
        · exact hprev r1 hr1

theorem appendRange_spec (m : Mem) (pred pred1 : filter) (e : Nat) (F : List CharRef) :
    ∀ (p fuel : Nat) (str : List Char), Facing m pred e p F → F.length + 1 ≤ fuel →
      appendRange m ⟨e, pred1⟩ fuel ⟨p, pred⟩ str = .ok (str ++ F.map CharRef.val) := by
  induction F with
  | nil =>
    intro p fuel str h hf
    obtain ⟨k, rfl⟩ : ∃ k, fuel = k + 1 := ⟨fuel - 1, by simp at hf; omega⟩
    have := facing_nil m pred e p h
    simp [appendRange, iter.eq, this]
  | cons r F ih =>
    intro p fuel str h hf
    obtain ⟨k, rfl⟩ : ∃ k, fuel = k + 1 := ⟨fuel - 1, by simp at hf; omega⟩
    obtain ⟨_, hd, hlt, p1, hinc, _, hF1⟩ := facing_cons m pred e p r F h
    have hne : ¬ p = e := by omega
    have := ih p1 k (str ++ [r.val]) hF1 (by simp at hf; omega)
    simp [appendRange, iter.eq, hne, iter.star, hd, hinc, this]

theorem distanceLoop_spec (m : Mem) (pred pred1 : filter) (e : Nat) (F : List CharRef) :
    ∀ (p fuel n : Nat), Facing m pred e p F → F.length + 1 ≤ fuel →
      distanceLoop m ⟨e, pred1⟩ fuel ⟨p, pred⟩ n = .ok (n + F.length) := by
  induction F with
  | nil =>
    intro p fuel n h hf
    obtain ⟨k, rfl⟩ : ∃ k, fuel = k + 1 := ⟨fuel - 1, by simp at hf; omega⟩
    have := facing_nil m pred e p h
    simp [distanceLoop, iter.eq, this]
  | cons r F ih =>
    intro p fuel n h hf
    obtain ⟨k, rfl⟩ : ∃ k, fuel = k + 1 := ⟨fuel - 1, by simp at hf; omega⟩
    obtain ⟨_, _, hlt, p1, hinc, _, hF1⟩ := facing_cons m pred e p r F h
    have hne : ¬ p = e := by omega
    have := ih p1 k (n + 1) hF1 (by simp at hf; omega)
    simp [distanceLoop, iter.eq, hne, hinc, this]
    omega

/-! ### The `const char*` constructor and `compose` -/

theorem strlenLoop_spec (m : Mem) (l : List Char) :
    ∀ (p fuel n : Nat), MemHolds m p (l ++ [NUL]) → (∀ c ∈ l, c ≠ NUL) → l.length + 1 ≤ fuel →
      strlenLoop m fuel p n = .ok (n + l.length) := by
  induction l with
  | nil =>
    intro p fuel n h _ hf
    obtain ⟨k, rfl⟩ : ∃ k, fuel = k + 1 := ⟨fuel - 1, by simp at hf; omega⟩
    have h1 : deref m p = .ok ⟨p, NUL⟩ := h.1
    simp [strlenLoop, h1]
  | cons c l ih =>
    intro p fuel n h hfree hf
    obtain ⟨k, rfl⟩ : ∃ k, fuel = k + 1 := ⟨fuel - 1, by simp at hf; omega⟩
    have h1 : deref m p = .ok ⟨p, c⟩ := h.1
    have hc : c ≠ NUL := hfree c (by simp)
    have := ih (p + 1) k (n + 1) h.2 (fun d hd => hfree d (by simp [hd])) (by simp at hf; omega)
    simp [strlenLoop, h1, hc, this]
    omega

/-- On a terminated buffer without `'\0'` the `const char*` constructor
recovers the buffer. -/
theorem of_cstr_spec (m : Mem) (p : Nat) (l : List Char) (pred : filter)
    (h : MemHolds m p (l ++ [NUL])) (hfree : ∀ c ∈ l, c ≠ NUL) :
    filtered_string_view.of_cstr m p pred = .ok ⟨p, l.length, pred⟩ := by
  have hb := memHolds_bound m (l ++ [NUL]) p h (by simp)
  have := strlenLoop_spec m l p m.length 0 h hfree (by simp at hb; omega)
  simp [filtered_string_view.of_cstr, strlen, this]

theorem compose_pred (filts : List filter) :
    ∀ (P : filter), filts.foldl (fun prev_pred fl => fun c => prev_pred c && fl c) P
      = fun c => P c && filts.all (fun f => f c) := by
  induction filts with
  | nil => intro P; funext c; simp
  | cons f fs ih =>
    intro P
    rw [List.foldl_cons, ih]
    funext c
    simp [Bool.and_assoc]

/-! ### `substr` -/

theorem wrap32_small (z : Int) (h0 : 0 ≤ z) (h1 : z < 2 ^ 31) : wrap32 z = z := by
  unfold wrap32
  omega

theorem filter_range_mid (L1 L2 L3 : List CharRef) (ps pe : Nat)
    (h1 : ∀ r ∈ L1, r.addr < ps) (h2 : ∀ r ∈ L2, ps ≤ r.addr ∧ r.addr < pe)
    (h3 : ∀ r ∈ L3, pe ≤ r.addr) :
    (L1 ++ L2 ++ L3).filter (fun c => decide (c.addr ≥ ps) && decide (c.addr < pe)) = L2 := by
  rw [List.filter_append, List.filter_append]
  have e1 : L1.filter (fun c => decide (c.addr ≥ ps) && decide (c.addr < pe)) = [] := by
    rw [List.filter_eq_nil_iff]
    intro r hr
    have := h1 r hr
    simp; omega
  have e3 : L3.filter (fun c => decide (c.addr ≥ ps) && decide (c.addr < pe)) = [] := by
    rw [List.filter_eq_nil_iff]
    intro r hr
    have := h3 r hr
    simp; omega
  have e2 : L2.filter (fun c => decide (c.addr ≥ ps) && decide (c.addr < pe)) = L2 := by
    rw [List.filter_eq_self]
    intro r hr
    have := h2 r hr
    simp; omega
  rw [e1, e2, e3]
  simp

/-- The view `substr` builds, for a start inside the filtered sequence and a
number `rc` of characters that does not overrun it. -/
theorem substr_core (m : Mem) (v : filtered_string_view) (B : List Char)
    (h : Terminated m v B) (hfree : ∀ c ∈ B, c ≠ NUL) (pos rc : Nat)
    (hpos : pos < (filteredRefs v B).length) (hrc : pos + rc ≤ (filteredRefs v B).length) :
    ∃ b start_it end_it w, v.begin_ m = .ok b ∧ advanceForward m pos b = .ok start_it ∧
      advanceForward m rc start_it = .ok end_it ∧
      filtered_string_view.of_cstr m (v.data_ + pos)
        (fun c => decide (c.addr ≥ start_it.pc_) && decide (c.addr < end_it.pc_) && v.pred_ c)
        = .ok w ∧
      filtered_string_view.to_string m w
        = .ok (((filteredSeq v B).drop pos).take rc) := by
  have hnul : NulAccepted v B := by
    intro r hr hz
    have hv : r.val ∈ B := by
      clear hpos hrc h
      generalize v.data_ = p at hr
      induction B generalizing p with
      | nil => simp [refsAt] at hr
      | cons c l ih =>
        simp only [refsAt, List.mem_cons] at hr
        rcases hr with rfl | hr
        · simp
        · exact List.mem_cons_of_mem _ (ih (fun d hd => hfree d (by simp [hd])) (p + 1) hr)
    exact absurd hz (hfree _ hv)
  obtain ⟨p0, hbeg, hp0, hF⟩ := begin_facing m v B h hnul
  obtain ⟨ps, hadv1, hps, hFs, hbefore⟩ :=
    advanceForward_spec m v.pred_ _ pos p0 (filteredRefs v B) hF (le_of_lt hpos)
  obtain ⟨pe, hadv2, _, hFe, hmid⟩ :=
    advanceForward_spec m v.pred_ _ rc ps ((filteredRefs v B).drop pos) hFs
      (by simp; omega)
  have hBlen : (filteredRefs v B).length ≤ B.length := by
    unfold filteredRefs
    rw [← refsAt_length B v.data_]
    exact List.length_filter_le _ _
  have hsplit : B = B.take pos ++ B.drop pos := (List.take_append_drop pos B).symm
  have htl : (B.take pos).length = pos := by simp; omega
  have hmem : MemHolds m (v.data_ + pos) (B.drop pos ++ [NUL]) := by
    have h2 := h.2
    rw [hsplit, List.append_assoc] at h2
    have := memHolds_append_right m (B.take pos) (B.drop pos ++ [NUL]) v.data_ h2
    rwa [htl] at this
  have hfree1 : ∀ c ∈ B.drop pos, c ≠ NUL := fun c hc => hfree c (List.mem_of_mem_drop hc)
  have hcstr := of_cstr_spec m (v.data_ + pos) (B.drop pos)
    (fun c => decide (c.addr ≥ ps) && decide (c.addr < pe) && v.pred_ c) hmem hfree1
  refine ⟨⟨p0, v.pred_⟩, ⟨ps, v.pred_⟩, ⟨pe, v.pred_⟩, _, hbeg, hadv1, hadv2, hcstr, ?_⟩
  have hback : Backed m
      ⟨v.data_ + pos, (B.drop pos).length,
        fun c => decide (c.addr ≥ ps) && decide (c.addr < pe) && v.pred_ c⟩ (B.drop pos) :=
    ⟨rfl, memHolds_append_left m (B.drop pos) [NUL] (v.data_ + pos) hmem⟩
  rw [to_string_spec m _ (B.drop pos) hback]
  congr 1
  simp only [filteredSeq, filteredRefs, ← List.map_drop, ← List.map_take]
  congr 1
  -- the accepted characters of the narrowed buffer are those of the whole buffer in range
  have hrefs : refsAt v.data_ B = refsAt v.data_ (B.take pos) ++ refsAt (v.data_ + pos) (B.drop pos) := by
    conv_lhs => rw [hsplit]
    rw [refsAt_append, htl]
  have hfirst : ∀ r ∈ (refsAt v.data_ (B.take pos)).filter v.pred_, r.addr < ps := by
    intro r hr
    have := refsAt_addr (B.take pos) v.data_ r (List.mem_filter.mp hr).1
    rw [htl] at this
    omega
  have hcomm : ∀ L : List CharRef,
      L.filter (fun c => decide (c.addr ≥ ps) && decide (c.addr < pe) && v.pred_ c)
        = (L.filter v.pred_).filter (fun c => decide (c.addr ≥ ps) && decide (c.addr < pe)) := by
    intro L
    rw [List.filter_filter]
  rw [hcomm]
  have hwhole : ((refsAt v.data_ B).filter v.pred_).filter
        (fun c => decide (c.addr ≥ ps) && decide (c.addr < pe))
      = ((refsAt (v.data_ + pos) (B.drop pos)).filter v.pred_).filter
        (fun c => decide (c.addr ≥ ps) && decide (c.addr < pe)) := by
    rw [hrefs, List.filter_append, List.filter_append]
    have : ((refsAt v.data_ (B.take pos)).filter v.pred_).filter
        (fun c => decide (c.addr ≥ ps) && decide (c.addr < pe)) = [] := by
      rw [List.filter_eq_nil_iff]
      intro r hr
      have := hfirst r hr
      simp; omega
    rw [this, List.nil_append]
  rw [← hwhole]
  have hdecomp : filteredRefs v B
      = (filteredRefs v B).take pos ++ ((filteredRefs v B).drop pos).take rc
          ++ ((filteredRefs v B).drop pos).drop rc := by
    rw [List.append_assoc, List.take_append_drop, List.take_append_drop]
  have hgoal : (filteredRefs v B).filter (fun c => decide (c.addr ≥ ps) && decide (c.addr < pe))
      = ((filteredRefs v B).drop pos).take rc := by
    conv_lhs => rw [hdecomp]
    apply filter_range_mid
    · exact hbefore
    · intro r hr
      exact ⟨(facing_addr m v.pred_ _ ps _ hFs r (List.mem_of_mem_take hr)).1, hmid r hr⟩
    · intro r hr
      exact (facing_addr m v.pred_ _ pe _ hFe r hr).1
  exact hgoal

/-! ## The tests of the repository, replayed -/

/-- The test "Test implicit string construct with predicate" and scenario 2 of the spec. -/
theorem test_cat_only_a :
    filtered_string_view.size memTests ⟨1, 3, onlyA⟩ = .ok 1 ∧
    filtered_string_view.at_ memTests ⟨1, 3, onlyA⟩ 0 = .ok ⟨2, 'a'⟩ := by
  decide

/-- The test "Test split function with default predicate": three views come back. -/
theorem test_split_xax :
    (split memTests 18 10 ⟨6, 3, default_predicate⟩ ⟨15, 1, default_predicate⟩).map
      (List.map (fun w => w.size_)) = .ok [0, 1, 0] := by
  decide

/-- The test "Test split function all tok in fsv": three views of raw length 0. -/
theorem test_split_xx :
    (split memTests 18 10 ⟨11, 2, default_predicate⟩ ⟨15, 1, default_predicate⟩).map
      (List.map (fun w => filtered_string_view.to_string memTests w)) = .ok [.ok [], .ok [], .ok []] := by
  decide

/-- A suffix taken by `substr`, as in "Test substr function". -/
theorem test_substr_suffix :
    (substr memTests 18 ⟨1, 3, default_predicate⟩ 1 0 >>= fun w =>
      filtered_string_view.to_string memTests w) = .ok ['a', 't'] := by
  decide

/-- The test "Test substr function": `substr(sv, 9)` is "Husky". -/
theorem test_substr_husky :
    (substr memDogs 42 ⟨1, 14, default_predicate⟩ 9 0 >>= fun w =>
      filtered_string_view.to_string memDogs w) = .ok "Husky".toList := by
  decide

/-- The test "Test substr function with isupper predicate". -/
theorem test_substr_upper :
    (substr memDogs 42 ⟨17, 8, fun c => c.val.isUpper⟩ 0 2 >>= fun w =>
      filtered_string_view.to_string memDogs w) = .ok "SD".toList := by
  decide

/-- The test "Test compose function": the result prints as "c/c++". -/
theorem test_compose :
    (compose memDogs ⟨27, 7, default_predicate⟩
        [fun c => c.val = 'c' || c.val = '+' || c.val = '/', fun c => decide (c.val > ' '),
         fun _ => true] >>= fun w =>
      filtered_string_view.to_string memDogs w) = .ok "c/c++".toList := by
  decide

/-- The test "Test iter *prev": one and two decrements from `cend()`. -/
theorem test_prev :
    ((filtered_string_view.end_ ⟨36, 4, default_predicate⟩).dec memDogs >>= fun it =>
      it.star memDogs) = .ok ⟨39, 'a'⟩ ∧
    (advance memDogs (filtered_string_view.end_ ⟨36, 4, default_predicate⟩) (-2) >>= fun it =>
      it.star memDogs) = .ok ⟨38, 's'⟩ := by
  decide

/-- When `size()` is `2^31` the conversion to `int` is negative and `substr`
takes the branch of the empty view, whatever `pos ≥ 0` is. -/
theorem substr_size_wraps (m : Mem) (empty_literal : Nat) (v : filtered_string_view)
    (pos count : Int) (h : filtered_string_view.size m v = .ok (2 ^ 31)) (hpos : 0 ≤ pos) :
    substr m empty_literal v pos count
      = filtered_string_view.of_cstr m empty_literal v.pred_ := by
  have hw : wrap32 ((2 ^ 31 : Nat) : Int) = -(2 ^ 31) := by
    unfold wrap32
    norm_num
  have hg : pos < 0 ∨ pos ≥ -(2 ^ 31 : Int) := Or.inr (by omega)
  simp only [substr, h, ok_bind, hw, filtered_string_view.predicate]
  rw [if_pos hg]

/-! ## Claims on the member functions -/

/-- C1: for a view `v` over a buffer `B`, `size()` returns the number of
characters of `B` that satisfy the predicate of `v`. -/
theorem size_counts_accepted (m : Mem) (v : filtered_string_view) (B : List Char)
    (h : Backed m v B) :
    filtered_string_view.size m v = .ok ((refsAt v.data_ B).countP v.pred_) := by
  rw [size_spec m v B h, filteredRefs, List.countP_eq_length_filter]

theorem size_counts_accepted_witness :
    Backed memTests ⟨1, 3, onlyA⟩ ['c', 'a', 't'] ∧
    filtered_string_view.size memTests ⟨1, 3, onlyA⟩
      = .ok ((refsAt 1 ['c', 'a', 't']).countP onlyA) :=
  ⟨by decide, size_counts_accepted memTests ⟨1, 3, onlyA⟩ ['c', 'a', 't'] (by decide)⟩

/-- C2: for a view `v` over a buffer `B` and a filtered index `0 ≤ i < size()`,
`at(i)` and `operator[](i)` both return the reference to the `i`-th character,
in raw order, among the characters of `B` that satisfy the predicate; so they
agree on that range. -/
theorem at_subscript_nth (m : Mem) (v : filtered_string_view) (B : List Char)
    (h : Backed m v B) (n : Nat) (hn : filtered_string_view.size m v = .ok n)
    (i : Int) (h0 : 0 ≤ i) (h1 : i < n) :
    ∃ r, ((refsAt v.data_ B).filter v.pred_).get? i.toNat = some r ∧
      filtered_string_view.at_ m v i = .ok r ∧
      filtered_string_view.subscript m v i = .ok r ∧
      filtered_string_view.subscript m v i = filtered_string_view.at_ m v i := by
  rw [size_spec m v B h] at hn
  have hn1 : (filteredRefs v B).length = n := by injection hn
  have hlt : i.toNat < (filteredRefs v B).length := by omega
  refine ⟨(filteredRefs v B).get ⟨i.toNat, hlt⟩, ?_, ?_, ?_, ?_⟩
  · simp [filteredRefs, List.getElem?_eq_getElem]
  · rw [at_spec m v B h i h0]
    simp [List.getElem?_eq_getElem, hlt]
  · rw [subscript_spec m v B h i h0]
    simp [List.getElem?_eq_getElem, hlt]
  · rw [subscript_spec m v B h i h0, at_spec m v B h i h0]
    simp [List.getElem?_eq_getElem, hlt]

theorem at_subscript_nth_witness :
    Backed memTests ⟨1, 3, onlyA⟩ ['c', 'a', 't'] ∧
    ∃ r, ((refsAt 1 ['c', 'a', 't']).filter onlyA).get? (0 : Int).toNat = some r ∧
      filtered_string_view.at_ memTests ⟨1, 3, onlyA⟩ 0 = .ok r ∧
      filtered_string_view.subscript memTests ⟨1, 3, onlyA⟩ 0 = .ok r ∧
      filtered_string_view.subscript memTests ⟨1, 3, onlyA⟩ 0
        = filtered_string_view.at_ memTests ⟨1, 3, onlyA⟩ 0 :=
  ⟨by decide,
   at_subscript_nth memTests ⟨1, 3, onlyA⟩ ['c', 'a', 't'] (by decide) 1 (by decide) 0
     (by decide) (by decide)⟩

/-- C3: for a view `v` over a buffer `B` whose `size()` is `n`, and every
integer `i`, `at(i)` throws the domain error exactly when `i < 0` or `i ≥ n`;
for `0 ≤ i < n` it returns a character; on a view whose filtered sequence is
empty `at(0)` throws. -/
theorem at_throws_iff_out_of_range (m : Mem) (v : filtered_string_view) (B : List Char)
    (h : Backed m v B) (n : Nat) (hn : filtered_string_view.size m v = .ok n) (i : Int) :
    (filtered_string_view.at_ m v i = .error (.domain_error i) ↔ (i < 0 ∨ (n : Int) ≤ i)) ∧
    ((0 ≤ i ∧ i < (n : Int)) → ∃ r, filtered_string_view.at_ m v i = .ok r) ∧
    (n = 0 → filtered_string_view.at_ m v 0 = .error (.domain_error 0)) := by
  rw [size_spec m v B h] at hn
  have hn1 : (filteredRefs v B).length = n := by injection hn
  have key : ∀ j : Int, 0 ≤ j → (n : Int) ≤ j →
      filtered_string_view.at_ m v j = .error (.domain_error j) := by
    intro j hj0 hj
    rw [at_spec m v B h j hj0]
    have hge : (filteredRefs v B).length ≤ j.toNat := by omega
    simp [List.getElem?_eq_none hge]
  have inr : ∀ j : Int, 0 ≤ j → j < (n : Int) →
      ∃ r, filtered_string_view.at_ m v j = .ok r := by
    intro j hj0 hj
    have hlt : j.toNat < (filteredRefs v B).length := by omega
    refine ⟨(filteredRefs v B).get ⟨j.toNat, hlt⟩, ?_⟩
    rw [at_spec m v B h j hj0]
    simp [List.getElem?_eq_getElem, hlt]
  refine ⟨⟨?_, ?_⟩, ?_, ?_⟩
  · intro he
    by_contra hc
    push_neg at hc
    obtain ⟨r, hr⟩ := inr i hc.1 hc.2
    rw [hr] at he
    cases he
  · intro hi
    rcases hi with hneg | hge
    · simp [filtered_string_view.at_, hneg]
    · by_cases hneg : i < 0
      · simp [filtered_string_view.at_, hneg]
      · exact key i (by omega) hge
  · intro hi
    exact inr i hi.1 hi.2
  · intro hz
    exact key 0 (le_refl 0) (by omega)

theorem at_throws_iff_out_of_range_witness :
    Backed memTests ⟨1, 3, onlyA⟩ ['c', 'a', 't'] ∧
    ((filtered_string_view.at_ memTests ⟨1, 3, onlyA⟩ 1 = .error (.domain_error 1)
        ↔ ((1 : Int) < 0 ∨ ((1 : Nat) : Int) ≤ 1)) ∧
     ((0 ≤ (1 : Int) ∧ (1 : Int) < ((1 : Nat) : Int)) →
        ∃ r, filtered_string_view.at_ memTests ⟨1, 3, onlyA⟩ 1 = .ok r) ∧
     ((1 : Nat) = 0 →
        filtered_string_view.at_ memTests ⟨1, 3, onlyA⟩ 0 = .error (.domain_error 0))) :=
  ⟨by decide,
   at_throws_iff_out_of_range memTests ⟨1, 3, onlyA⟩ ['c', 'a', 't'] (by decide) 1
     (by decide) 1⟩

/-! ## Claims on the iterator -/

/-- C4, as stated, fails on a view over `std::string("a\0b", 3)` whose
predicate rejects `'\0'`: `size()` is 2 and `at(1)` is `'b'`, but the walk from
`begin()` to `end()` takes 3 steps, yields `a`, `'\0'`, `b`, and `begin()`
advanced once rests on the `'\0'`. -/
theorem iterator_walk_counterexample :
    Terminated memEmbedded ⟨1, 3, notNul⟩ ['a', NUL, 'b'] ∧
    filtered_string_view.size memEmbedded ⟨1, 3, notNul⟩ = .ok 2 ∧
    filtered_string_view.to_string memEmbedded ⟨1, 3, notNul⟩ = .ok ['a', 'b'] ∧
    (filtered_string_view.begin_ memEmbedded ⟨1, 3, notNul⟩ >>= fun b =>
      distance memEmbedded b (filtered_string_view.end_ ⟨1, 3, notNul⟩)) = .ok 3 ∧
    (filtered_string_view.begin_ memEmbedded ⟨1, 3, notNul⟩ >>= fun b =>
      appendRange memEmbedded (filtered_string_view.end_ ⟨1, 3, notNul⟩) 7 b [])
      = .ok ['a', NUL, 'b'] ∧
    filtered_string_view.at_ memEmbedded ⟨1, 3, notNul⟩ 1 = .ok ⟨3, 'b'⟩ ∧
    (filtered_string_view.begin_ memEmbedded ⟨1, 3, notNul⟩ >>= fun b =>
      advance memEmbedded b 1 >>= fun it => it.star memEmbedded) = .ok ⟨2, NUL⟩ := by
  decide

/-- C4, amended: for a view `v` over a buffer `B` that is followed by the
terminator and in which every `'\0'` is accepted by the predicate (so for every
buffer without `'\0'`), the walk from `begin()` with `++` until `end()` visits
exactly the filtered sequence in order, `std::distance(begin(), end())` is
`size()`, and for every `i < size()` the iterator `begin()` advanced `i` times
is not `end()` and dereferences to the character `at(i)` returns. -/
theorem iterator_walk_is_filtered_sequence (m : Mem) (v : filtered_string_view) (B : List Char)
    (h : Terminated m v B) (hnul : NulAccepted v B) :
    ∃ b, v.begin_ m = .ok b ∧
      appendRange m v.end_ (m.length + 1) b [] = .ok (filteredSeq v B) ∧
      filtered_string_view.size m v = .ok (filteredSeq v B).length ∧
      distance m b v.end_ = filtered_string_view.size m v ∧
      ∀ i : Nat, i < (filteredSeq v B).length →
        ∃ it r, advance m b i = .ok it ∧ it.eq v.end_ = false ∧
          it.star m = .ok r ∧ filtered_string_view.at_ m v i = .ok r ∧
          (filteredSeq v B).get? i = some r.val := by
  have hback : Backed m v B := ⟨h.1, memHolds_append_left m B [NUL] v.data_ h.2⟩
  obtain ⟨p, hbeg, _, hF⟩ := begin_facing m v B h hnul
  have hbound := facing_bound m v.pred_ _ p _ hF
  have hlen : (filteredSeq v B).length = (filteredRefs v B).length := by simp [filteredSeq]
  refine ⟨⟨p, v.pred_⟩, hbeg, ?_, ?_, ?_, ?_⟩
  · have := appendRange_spec m v.pred_ v.pred_ _ _ p (m.length + 1) [] hF (by omega)
    simpa [filtered_string_view.end_, filteredSeq] using this
  · rw [size_spec m v B hback, hlen]
  · have := distanceLoop_spec m v.pred_ v.pred_ _ _ p (m.length + 1) 0 hF (by omega)
    rw [size_spec m v B hback]
    simpa [distance, filtered_string_view.end_] using this
  · intro i hi
    rw [hlen] at hi
    obtain ⟨p1, hadv, _, hF1, _⟩ :=
      advanceForward_spec m v.pred_ _ i p (filteredRefs v B) hF (le_of_lt hi)
    have hdrop : (filteredRefs v B).drop i
        = (filteredRefs v B).get ⟨i, hi⟩ :: (filteredRefs v B).drop (i + 1) := by
      simp
    rw [hdrop] at hF1
    obtain ⟨_, hd, hlt, _⟩ := facing_cons m v.pred_ _ p1 _ _ hF1
    refine ⟨⟨p1, v.pred_⟩, (filteredRefs v B).get ⟨i, hi⟩, ?_, ?_, ?_, ?_, ?_⟩
    · simp [advance, hadv]
    · simp [iter.eq, filtered_string_view.end_]; omega
    · exact hd
    · rw [at_spec m v B hback i (by omega)]
      simp [List.getElem?_eq_getElem, hi]
    · simp [filteredSeq, List.getElem?_eq_getElem, hi]

theorem iterator_walk_is_filtered_sequence_witness :
    Terminated memTests ⟨1, 3, onlyA⟩ ['c', 'a', 't'] ∧ NulAccepted ⟨1, 3, onlyA⟩ ['c', 'a', 't'] ∧
    ∃ b, filtered_string_view.begin_ memTests ⟨1, 3, onlyA⟩ = .ok b ∧
      appendRange memTests (filtered_string_view.end_ ⟨1, 3, onlyA⟩) (memTests.length + 1) b []
        = .ok (filteredSeq ⟨1, 3, onlyA⟩ ['c', 'a', 't']) ∧
      filtered_string_view.size memTests ⟨1, 3, onlyA⟩
        = .ok (filteredSeq ⟨1, 3, onlyA⟩ ['c', 'a', 't']).length ∧
      distance memTests b (filtered_string_view.end_ ⟨1, 3, onlyA⟩)
        = filtered_string_view.size memTests ⟨1, 3, onlyA⟩ ∧
      ∀ i : Nat, i < (filteredSeq ⟨1, 3, onlyA⟩ ['c', 'a', 't']).length →
        ∃ it r, advance memTests b i = .ok it ∧
          it.eq (filtered_string_view.end_ ⟨1, 3, onlyA⟩) = false ∧
          it.star memTests = .ok r ∧ filtered_string_view.at_ memTests ⟨1, 3, onlyA⟩ i = .ok r ∧
          (filteredSeq ⟨1, 3, onlyA⟩ ['c', 'a', 't']).get? i = some r.val :=
  ⟨by decide, by decide,
   iterator_walk_is_filtered_sequence memTests ⟨1, 3, onlyA⟩ ['c', 'a', 't'] (by decide) (by decide)⟩

/-! ## Claims on `compose` and `substr` -/

/-- C5, as stated, fails on a view over `std::string("a\0b", 3)` with the
default predicate composed with a predicate that rejects `'\0'`: the buffer
filtered by the conjunction is `a`, `b`, but `compose` measures the buffer
again with `strlen` and its result has the filtered sequence `a`. -/
theorem compose_counterexample :
    Terminated memEmbedded ⟨1, 3, default_predicate⟩ ['a', NUL, 'b'] ∧
    ((refsAt 1 ['a', NUL, 'b']).filter
        (fun c => default_predicate c && [notNul].all (fun f => f c))).map CharRef.val
      = ['a', 'b'] ∧
    (compose memEmbedded ⟨1, 3, default_predicate⟩ [notNul] >>= fun w =>
      filtered_string_view.to_string memEmbedded w) = .ok ['a'] := by
  decide

/-- C5, amended: for a view `v` over a buffer `B` that has no `'\0'` and is
followed by the terminator, and every list of predicates, `compose` returns a
view over the same data whose filtered sequence is the characters of `B`, in
raw order, that satisfy the predicate of `v` and every predicate of the list. -/
theorem compose_filters_by_conjunction (m : Mem) (v : filtered_string_view) (B : List Char)
    (h : Terminated m v B) (hfree : ∀ c ∈ B, c ≠ NUL) (filts : List filter) :
    ∃ w, compose m v filts = .ok w ∧ w.data_ = v.data_ ∧
      filtered_string_view.to_string m w
        = .ok (((refsAt v.data_ B).filter
            (fun c => v.pred_ c && filts.all (fun f => f c))).map CharRef.val) := by
  have hc := of_cstr_spec m v.data_ B
    (fun c => v.pred_ c && filts.all (fun f => f c)) h.2 hfree
  refine ⟨⟨v.data_, B.length, fun c => v.pred_ c && filts.all (fun f => f c)⟩, ?_, rfl, ?_⟩
  · simp only [compose, filtered_string_view.predicate, filtered_string_view.data, compose_pred]
    exact hc
  · have hback : Backed m ⟨v.data_, B.length, fun c => v.pred_ c && filts.all (fun f => f c)⟩ B :=
      ⟨rfl, memHolds_append_left m B [NUL] v.data_ h.2⟩
    rw [to_string_spec m _ B hback]
    rfl

theorem compose_filters_by_conjunction_witness :
    Terminated memTests ⟨1, 3, default_predicate⟩ ['c', 'a', 't'] ∧
    (∀ c ∈ ['c', 'a', 't'], c ≠ NUL) ∧
    ∃ w, compose memTests ⟨1, 3, default_predicate⟩ [onlyA, default_predicate] = .ok w ∧
      w.data_ = 1 ∧
      filtered_string_view.to_string memTests w
        = .ok (((refsAt 1 ['c', 'a', 't']).filter
            (fun c => default_predicate c && [onlyA, default_predicate].all (fun f => f c))).map
              CharRef.val) :=
  ⟨by decide, by decide,
   compose_filters_by_conjunction memTests ⟨1, 3, default_predicate⟩ ['c', 'a', 't']
     (by decide) (by decide) [onlyA, default_predicate]⟩

/-- C6, as stated, fails on a view over `std::string("a\0b", 3)` with the
default predicate: its filtered sequence is `a`, `'\0'`, `b`, and
`substr(v, 0, 0)` should be all of it, but the result is measured with
`strlen` and its filtered sequence is `a`. -/
theorem substr_counterexample :
    Terminated memEmbedded ⟨1, 3, default_predicate⟩ ['a', NUL, 'b'] ∧
    filtered_string_view.to_string memEmbedded ⟨1, 3, default_predicate⟩
      = .ok ['a', NUL, 'b'] ∧
    (substr memEmbedded 6 ⟨1, 3, default_predicate⟩ 0 0 >>= fun w =>
      filtered_string_view.to_string memEmbedded w) = .ok ['a'] := by
  decide

/-- C6, amended: for a view `v` over a buffer `B` that has no `'\0'` and is
followed by the terminator, with a filtered sequence `s` of fewer than `2^31`
characters, and every `0 ≤ pos < |s|`, `substr(v, pos, count)` returns a view
whose filtered sequence is `s[pos .. pos+count)` when `0 < count ≤ |s| - pos`
and `s[pos .. |s|)` when `count ≤ 0` or `count > |s| - pos`. -/
theorem substr_is_slice (m : Mem) (empty_literal : Nat) (v : filtered_string_view)
    (B : List Char) (h : Terminated m v B) (hfree : ∀ c ∈ B, c ≠ NUL)
    (hsmall : ((filteredSeq v B).length : Int) < 2 ^ 31)
    (pos count : Int) (h0 : 0 ≤ pos) (h1 : pos < ((filteredSeq v B).length : Int)) :
    ∃ w, substr m empty_literal v pos count = .ok w ∧
      ((0 < count ∧ count ≤ ((filteredSeq v B).length : Int) - pos) →
        filtered_string_view.to_string m w
          = .ok (((filteredSeq v B).drop pos.toNat).take count.toNat)) ∧
      ((count ≤ 0 ∨ count > ((filteredSeq v B).length : Int) - pos) →
        filtered_string_view.to_string m w = .ok ((filteredSeq v B).drop pos.toNat)) := by
  have hback : Backed m v B := ⟨h.1, memHolds_append_left m B [NUL] v.data_ h.2⟩
  have hlen : (filteredSeq v B).length = (filteredRefs v B).length := by simp [filteredSeq]
  rw [hlen] at hsmall h1
  have hsize := size_spec m v B hback
  have hw : wrap32 ((filteredRefs v B).length : Int) = (filteredRefs v B).length :=
    wrap32_small _ (by omega) hsmall
  have hw2 : wrap32 (((filteredRefs v B).length : Int) - pos)
      = ((filteredRefs v B).length : Int) - pos := wrap32_small _ (by omega) (by omega)
  have hguard : ¬ (pos < 0 ∨ pos ≥ ((filteredRefs v B).length : Int)) := by omega
  by_cases hc : count ≤ 0 ∨ count > ((filteredRefs v B).length : Int) - pos
  · obtain ⟨b, start_it, end_it, w, hb, hs, he, hcs, hstr⟩ :=
      substr_core m v B h hfree pos.toNat ((filteredRefs v B).length - pos.toNat)
        (by omega) (by omega)
    have hrc : (((filteredRefs v B).length : Int) - pos).toNat
        = (filteredRefs v B).length - pos.toNat := by omega
    refine ⟨w, ?_, ?_, ?_⟩
    · simp only [substr, hsize, ok_bind, hw, hw2, hc, if_true, hguard, if_false, hb, advance,
        h0, filtered_string_view.predicate, filtered_string_view.data]
      have hnn : (0 : Int) ≤ ((filteredRefs v B).length : Int) - pos := by omega
      simp only [hs, ok_bind, hnn, if_true, hrc, he]
      exact hcs
    · intro hcc
      rw [hlen] at hcc
      omega
    · intro _
      rw [hstr]
      have hle : ((filteredSeq v B).drop pos.toNat).length
          ≤ (filteredRefs v B).length - pos.toNat := by
        rw [List.length_drop, hlen]
      rw [List.take_of_length_le hle]
  · obtain ⟨b, start_it, end_it, w, hb, hs, he, hcs, hstr⟩ :=
      substr_core m v B h hfree pos.toNat count.toNat (by omega) (by omega)
    refine ⟨w, ?_, ?_, ?_⟩
    · simp only [substr, hsize, ok_bind, hw, hw2, hc, if_false, hguard, hb, advance,
        h0, if_true, filtered_string_view.predicate, filtered_string_view.data]
      have hnn : (0 : Int) ≤ count := by omega
      simp only [hs, ok_bind, hnn, if_true, he]
      exact hcs
    · intro _
      exact hstr
    · intro hcc
      rw [hlen] at hcc
      exact absurd hcc hc

theorem substr_is_slice_witness :
    Terminated memTests ⟨1, 3, default_predicate⟩ ['c', 'a', 't'] ∧
    (∀ c ∈ ['c', 'a', 't'], c ≠ NUL) ∧
    ∃ w, substr memTests 18 ⟨1, 3, default_predicate⟩ 1 1 = .ok w ∧
      ((0 < (1 : Int) ∧
          (1 : Int) ≤ ((filteredSeq ⟨1, 3, default_predicate⟩ ['c', 'a', 't']).length : Int) - 1) →
        filtered_string_view.to_string memTests w
          = .ok (((filteredSeq ⟨1, 3, default_predicate⟩ ['c', 'a', 't']).drop
              (1 : Int).toNat).take (1 : Int).toNat)) ∧
      (((1 : Int) ≤ 0 ∨
          (1 : Int) > ((filteredSeq ⟨1, 3, default_predicate⟩ ['c', 'a', 't']).length : Int) - 1) →
        filtered_string_view.to_string memTests w
          = .ok ((filteredSeq ⟨1, 3, default_predicate⟩ ['c', 'a', 't']).drop (1 : Int).toNat)) :=
  ⟨by decide, by decide,
   substr_is_slice memTests 18 ⟨1, 3, default_predicate⟩ ['c', 'a', 't'] (by decide) (by decide)
     (by decide) 1 1 (by decide) (by decide)⟩

/-! ## Claims on `split` -/

/-- C7 at `split("cab", "ab")`: the views joined by the token should give
`c`, `a`, `b`; the code returns a single view of raw length 1 (the copied
`c`), and that view points into a `std::string` that no longer exists, so
converting it is undefined. On the spec's own example `split("xax", "x")`
the middle view, of raw length 1, dangles in the same way. -/
theorem split_token_at_end_one_segment :
    filtered_string_view.to_string memSplit ⟨1, 3, default_predicate⟩ = .ok ['c', 'a', 'b'] ∧
    filtered_string_view.to_string memSplit ⟨6, 2, default_predicate⟩ = .ok ['a', 'b'] ∧
    (split memSplit 16 10 ⟨1, 3, default_predicate⟩ ⟨6, 2, default_predicate⟩).map
      (List.map (observe memSplit)) = .ok [(18, 1, .error .undefined)] ∧
    (split memTests 18 10 ⟨6, 3, default_predicate⟩ ⟨15, 1, default_predicate⟩).map
      (List.map (observe memTests))
      = .ok [(20, 0, .ok []), (20, 1, .error .undefined), (18, 0, .ok [])] := by
  decide

/-- C8 at `split("cab", "ab")`: the match of the token ends at the end of the
view, yet no trailing empty view is appended: the last (and only) returned
view has raw length 1 and its string conversion is not the empty sequence. -/
theorem split_token_at_end_no_trailing_empty :
    (split memSplit 16 10 ⟨1, 3, default_predicate⟩ ⟨6, 2, default_predicate⟩).map
      (fun ws => (ws.length, ws.getLast?.map (fun w => w.size_))) = .ok (1, some 1) ∧
    (split memSplit 16 10 ⟨1, 3, default_predicate⟩ ⟨6, 2, default_predicate⟩).map
      (fun ws => ws.getLast?.map (fun w => decide (filtered_string_view.to_string memSplit w = .ok [])))
      = .ok (some false) := by
  decide

/-- C9 at an empty view: for the view of the empty C string at the end of
"cab" the loop of `split` is not entered and the returned vector is empty;
for the view of the literal `""` the statement `--fsv.end()` first reads the
cell before the buffer, which is undefined. -/
theorem split_empty_view_returns_nothing :
    filtered_string_view.of_cstr memSplit 4 default_predicate = .ok ⟨4, 0, default_predicate⟩ ∧
    filtered_string_view.to_string memSplit ⟨4, 0, default_predicate⟩ = .ok [] ∧
    (split memSplit 16 10 ⟨4, 0, default_predicate⟩ ⟨13, 1, default_predicate⟩).map List.length
      = .ok 0 ∧
    (split memSplit 16 10 ⟨16, 0, default_predicate⟩ ⟨13, 1, default_predicate⟩).map List.length
      = .error .undefined := by
  refine ⟨rfl, ?_, ?_, ?_⟩ <;> decide

/-- C10 at `split("a", "x")`: the token does not occur and exactly one view is
returned, of raw length 1, but it points into the destroyed local
`std::string`, so its filtered sequence cannot be read, while that of the
argument is `a`. -/
theorem split_no_match_view_dangles :
    filtered_string_view.to_string memSplit ⟨10, 1, default_predicate⟩ = .ok ['a'] ∧
    filtered_string_view.to_string memSplit ⟨13, 1, default_predicate⟩ = .ok ['x'] ∧
    (split memSplit 16 10 ⟨10, 1, default_predicate⟩ ⟨13, 1, default_predicate⟩).map
      (List.map (observe memSplit)) = .ok [(18, 1, .error .undefined)] := by
  decide

/-! ## Lemmas for the second group of claims -/

theorem emptyLoop_spec (m : Mem) (v : filtered_string_view) (l : List Char) :
    ∀ (i : Nat), MemHolds m (v.data_ + i) l →
      filtered_string_view.emptyLoop m v l.length i
        = .ok ((refsAt (v.data_ + i) l).filter v.pred_).isEmpty := by
  induction l with
  | nil => intro i _; simp [filtered_string_view.emptyLoop, refsAt]
  | cons c l ih =>
    intro i h
    obtain ⟨h1, h2⟩ := h
    have ih1 := ih (i + 1)
    rw [← Nat.add_assoc] at ih1
    simp only [List.length_cons, filtered_string_view.emptyLoop, h1, ok_bind, refsAt]
    by_cases hp : v.pred_ ⟨v.data_ + i, c⟩
    · simp [hp, List.filter_cons]
    · simp [hp, List.filter_cons, ih1 h2]

theorem empty_spec (m : Mem) (v : filtered_string_view) (B : List Char) (h : Backed m v B) :
    filtered_string_view.empty m v = .ok (filteredRefs v B).isEmpty := by
  obtain ⟨hs, hm⟩ := h
  have := emptyLoop_spec m v B 0 hm
  simp only [filtered_string_view.empty, hs, this, filteredRefs]
  simp

theorem wrap32_le (z : Int) (h0 : 0 ≤ z) : wrap32 z ≤ z := by
  unfold wrap32
  omega

/-- The `const char*` constructor on the string literal `""`. -/
theorem of_cstr_literal (m : Mem) (lit : Nat) (pred : filter)
    (hlit : deref m lit = .ok ⟨lit, NUL⟩) :
    filtered_string_view.of_cstr m lit pred = .ok ⟨lit, 0, pred⟩ :=
  of_cstr_spec m lit [] pred ⟨hlit, trivial⟩ (by simp)

theorem of_cstr_data (m : Mem) (s : Nat) (pred : filter) (w : filtered_string_view)
    (h : filtered_string_view.of_cstr m s pred = .ok w) : w.data_ = s ∧ w.pred_ = pred := by
  unfold filtered_string_view.of_cstr at h
  cases hn : strlen m s with
  | error e => simp [hn] at h
  | ok n =>
    simp only [hn, ok_bind, pure_eq_ok, Except.ok.injEq] at h
    subst h
    exact ⟨rfl, rfl⟩

theorem perm_all (fs gs : List filter) (h : fs.Perm gs) (c : CharRef) :
    fs.all (fun f => f c) = gs.all (fun f => f c) := by
  induction h with
  | nil => rfl
  | cons x _ ih => simp [ih]
  | swap x y l => simp [Bool.and_left_comm]
  | trans _ _ ih1 ih2 => rw [ih1, ih2]

/-- Assigning an object to itself by move leaves every object as it was. -/
theorem move_assign_self (st : Objects) (this : Nat) : move_assign st this this = st := by
  funext a
  by_cases ha : a = this
  · subst ha
    simp [move_assign, exchange]
  · simp [move_assign, exchange, Function.update, ha]

/-! ## Claims on `substr` out of range, move, emptiness, order of predicates -/

/-- C11: for a view `v` over a buffer `B`, with filtered sequence `s` (so that
`size()` is `|s|`), every `pos` with `pos < 0` or `pos ≥ |s|` and every
`count`, `substr(v, pos, count)` returns a view whose filtered sequence is
empty, whose `size()` is 0, whose `empty()` is true and whose `predicate()` is
the predicate of `v`. -/
theorem substr_out_of_range_is_empty (m : Mem) (empty_literal : Nat)
    (v : filtered_string_view) (B : List Char) (h : Backed m v B)
    (hlit : deref m empty_literal = .ok ⟨empty_literal, NUL⟩)
    (pos count : Int) (hpos : pos < 0 ∨ ((filteredSeq v B).length : Int) ≤ pos) :
    filtered_string_view.size m v = .ok (filteredSeq v B).length ∧
    ∃ w, substr m empty_literal v pos count = .ok w ∧
      filtered_string_view.to_string m w = .ok [] ∧
      filtered_string_view.size m w = .ok 0 ∧
      filtered_string_view.empty m w = .ok true ∧
      w.predicate = v.predicate := by
  have hlen : (filteredSeq v B).length = (filteredRefs v B).length := by simp [filteredSeq]
  have hn := size_spec m v B h
  rw [hlen] at hpos
  have hw := wrap32_le ((filteredRefs v B).length : Int) (by omega)
  have hg : pos < 0 ∨ pos ≥ wrap32 ((filteredRefs v B).length : Int) := by
    rcases hpos with h1 | h1
    · exact Or.inl h1
    · exact Or.inr (by omega)
  have hc := of_cstr_literal m empty_literal v.pred_ hlit
  refine ⟨by rw [hn, hlen], ⟨empty_literal, 0, v.pred_⟩, ?_, rfl, rfl, rfl, rfl⟩
  simp only [substr, hn, ok_bind, filtered_string_view.predicate]
  rw [if_pos hg]
  exact hc

theorem substr_out_of_range_is_empty_witness :
    Backed memTests ⟨1, 3, onlyA⟩ ['c', 'a', 't'] ∧
    deref memTests 18 = .ok ⟨18, NUL⟩ ∧
    ((5 : Int) < 0 ∨ ((filteredSeq ⟨1, 3, onlyA⟩ ['c', 'a', 't']).length : Int) ≤ 5) ∧
    filtered_string_view.size memTests ⟨1, 3, onlyA⟩
      = .ok (filteredSeq ⟨1, 3, onlyA⟩ ['c', 'a', 't']).length ∧
    ∃ w, substr memTests 18 ⟨1, 3, onlyA⟩ 5 2 = .ok w ∧
      filtered_string_view.to_string memTests w = .ok [] ∧
      filtered_string_view.size memTests w = .ok 0 ∧
      filtered_string_view.empty memTests w = .ok true ∧
      w.predicate = filtered_string_view.predicate ⟨1, 3, onlyA⟩ :=
  ⟨by decide, by decide, by decide,
   substr_out_of_range_is_empty memTests 18 ⟨1, 3, onlyA⟩ ['c', 'a', 't'] (by decide)
     (by decide) 5 2 (by decide)⟩

/-- C13: the move constructor gives the new view the data, raw length and
predicate of `v` and leaves `v` default-constructed; the move assignment of the
object at `this` from a different object at `other` does the same; and a view
in that state has null `data()`, `size()` 0 and `empty()` true. -/
theorem move_transfers_and_resets (m : Mem) (v : filtered_string_view) (st : Objects)
    (this other : Nat) (hne : this ≠ other) :
    (move_construct v).1 = v ∧
    (move_construct v).2 = filtered_string_view.mk_default ∧
    move_assign st this other this = st other ∧
    move_assign st this other other = filtered_string_view.mk_default ∧
    filtered_string_view.mk_default.data = 0 ∧
    filtered_string_view.size m filtered_string_view.mk_default = .ok 0 ∧
    filtered_string_view.empty m filtered_string_view.mk_default = .ok true := by
  have hne1 : other ≠ this := fun h => hne h.symm
  refine ⟨rfl, rfl, ?_, ?_, rfl, rfl, rfl⟩
  · simp [move_assign, exchange, Function.update, hne1, hne]
  · simp [move_assign, exchange, Function.update, hne1, hne, filtered_string_view.mk_default]

theorem move_transfers_and_resets_witness :
    (0 : Nat) ≠ 1 ∧
    (move_construct ⟨1, 3, onlyA⟩).1 = ⟨1, 3, onlyA⟩ ∧
    (move_construct ⟨1, 3, onlyA⟩).2 = filtered_string_view.mk_default ∧
    move_assign (fun _ => ⟨1, 3, onlyA⟩) 0 1 0 = (fun _ => ⟨1, 3, onlyA⟩) 1 ∧
    move_assign (fun _ => ⟨1, 3, onlyA⟩) 0 1 1 = filtered_string_view.mk_default ∧
    filtered_string_view.mk_default.data = 0 ∧
    filtered_string_view.size memTests filtered_string_view.mk_default = .ok 0 ∧
    filtered_string_view.empty memTests filtered_string_view.mk_default = .ok true :=
  ⟨by decide,
   move_transfers_and_resets memTests ⟨1, 3, onlyA⟩ (fun _ => ⟨1, 3, onlyA⟩) 0 1 (by decide)⟩

/-- C16: for a view `v` over a buffer `B`, `empty()` returns true exactly when
`size()` returns 0. -/
theorem empty_iff_size_zero (m : Mem) (v : filtered_string_view) (B : List Char)
    (h : Backed m v B) :
    ∃ n, filtered_string_view.size m v = .ok n ∧
      filtered_string_view.empty m v = .ok (decide (n = 0)) := by
  refine ⟨(filteredRefs v B).length, size_spec m v B h, ?_⟩
  rw [empty_spec m v B h]
  cases filteredRefs v B <;> simp

theorem empty_iff_size_zero_witness :
    Backed memTests ⟨1, 3, onlyA⟩ ['c', 'a', 't'] ∧
    ∃ n, filtered_string_view.size memTests ⟨1, 3, onlyA⟩ = .ok n ∧
      filtered_string_view.empty memTests ⟨1, 3, onlyA⟩ = .ok (decide (n = 0)) :=
  ⟨by decide, empty_iff_size_zero memTests ⟨1, 3, onlyA⟩ ['c', 'a', 't'] (by decide)⟩

/-- C17: when `gs` is a permutation of `fs`, `compose(v, fs)` and
`compose(v, gs)` are the same view, so their string conversions agree; and on
a buffer without `'\0'` that is followed by the terminator both return a
filtered sequence. -/
theorem compose_order_irrelevant (m : Mem) (v : filtered_string_view)
    (fs gs : List filter) (hp : fs.Perm gs) :
    compose m v fs = compose m v gs ∧
    (compose m v fs >>= fun w => filtered_string_view.to_string m w)
      = (compose m v gs >>= fun w => filtered_string_view.to_string m w) ∧
    (∀ B : List Char, Terminated m v B → (∀ c ∈ B, c ≠ NUL) →
      ∃ s, (compose m v fs >>= fun w => filtered_string_view.to_string m w) = .ok s ∧
        (compose m v gs >>= fun w => filtered_string_view.to_string m w) = .ok s) := by
  have heq : compose m v fs = compose m v gs := by
    simp only [compose, compose_pred]
    congr 1
    funext c
    rw [perm_all fs gs hp c]
  refine ⟨heq, by rw [heq], ?_⟩
  intro B hT hfree
  have hc := of_cstr_spec m v.data_ B
    (fun c => v.pred_ c && gs.all (fun f => f c)) hT.2 hfree
  have hback : Backed m ⟨v.data_, B.length, fun c => v.pred_ c && gs.all (fun f => f c)⟩ B :=
    ⟨rfl, memHolds_append_left m B [NUL] v.data_ hT.2⟩
  have hgs : compose m v gs
      = .ok ⟨v.data_, B.length, fun c => v.pred_ c && gs.all (fun f => f c)⟩ := by
    simp only [compose, filtered_string_view.predicate, filtered_string_view.data, compose_pred]
    exact hc
  refine ⟨filteredSeq ⟨v.data_, B.length, fun c => v.pred_ c && gs.all (fun f => f c)⟩ B, ?_, ?_⟩
  · rw [heq, hgs, ok_bind]
    exact to_string_spec m _ B hback
  · rw [hgs, ok_bind]
    exact to_string_spec m _ B hback

theorem compose_order_irrelevant_witness :
    [onlyA, notNul].Perm [notNul, onlyA] ∧
    compose memTests ⟨1, 3, default_predicate⟩ [onlyA, notNul]
      = compose memTests ⟨1, 3, default_predicate⟩ [notNul, onlyA] ∧
    (compose memTests ⟨1, 3, default_predicate⟩ [onlyA, notNul] >>= fun w =>
        filtered_string_view.to_string memTests w)
      = (compose memTests ⟨1, 3, default_predicate⟩ [notNul, onlyA] >>= fun w =>
        filtered_string_view.to_string memTests w) ∧
    (∀ B : List Char, Terminated memTests ⟨1, 3, default_predicate⟩ B → (∀ c ∈ B, c ≠ NUL) →
      ∃ s, (compose memTests ⟨1, 3, default_predicate⟩ [onlyA, notNul] >>= fun w =>
          filtered_string_view.to_string memTests w) = .ok s ∧
        (compose memTests ⟨1, 3, default_predicate⟩ [notNul, onlyA] >>= fun w =>
          filtered_string_view.to_string memTests w) = .ok s) :=
  ⟨List.Perm.swap notNul onlyA [],
   compose_order_irrelevant memTests ⟨1, 3, default_predicate⟩ [onlyA, notNul] [notNul, onlyA]
     (List.Perm.swap notNul onlyA [])⟩

/-! ## Comparison and string conversion -/

theorem string_compare_eq_lexCompare (s1 : List Char) :
    ∀ s2, string_compare s1 s2 = lexCompare s1 s2 := by
  induction s1 with
  | nil =>
    intro s2
    cases s2 with
    | nil => rfl
    | cons b s2 =>
      simp [string_compare, traits_compare, lexCompare, compare, compareOfLessAndEq]
  | cons a s1 ih =>
    intro s2
    cases s2 with
    | nil => simp [string_compare, traits_compare, lexCompare, compare, compareOfLessAndEq]
    | cons b s2 =>
      have h := ih s2
      simp only [string_compare] at h
      simp only [string_compare, List.length_cons, Nat.succ_min_succ, List.take_succ_cons,
        traits_compare, lexCompare]
      by_cases hab : a < b
      · simp [hab]
      · by_cases hba : b < a
        · simp [hab, hba]
        · have hc : compare (s1.length + 1) (s2.length + 1) = compare s1.length s2.length := by
            simp [compare, compareOfLessAndEq]
          simp only [hab, hba, if_false, hc]
          exact h

theorem lexCompare_eq_iff (s1 : List Char) : ∀ s2, lexCompare s1 s2 = .eq ↔ s1 = s2 := by
  induction s1 with
  | nil => intro s2; cases s2 <;> simp [lexCompare]
  | cons a s1 ih =>
    intro s2
    cases s2 with
    | nil => simp [lexCompare]
    | cons b s2 =>
      simp only [lexCompare]
      by_cases hab : a < b
      · simp [hab]; intro h; exact absurd (h ▸ hab) (lt_irrefl _)
      · by_cases hba : b < a
        · simp [hab, hba]; intro h; exact absurd (h ▸ hba) (lt_irrefl _)
        · have : a = b := le_antisymm (not_lt.mp hba) (not_lt.mp hab)
          simp [hab, hba, ih, this]

theorem lexCompare_lt_iff (s1 : List Char) : ∀ s2, lexCompare s1 s2 = .lt ↔ s1 < s2 := by
  induction s1 with
  | nil =>
    intro s2
    cases s2 with
    | nil => simp [lexCompare]
    | cons b s2 => simp only [lexCompare, true_iff]; exact List.Lex.nil
  | cons a s1 ih =>
    intro s2
    cases s2 with
    | nil =>
      simp only [lexCompare]
      constructor
      · intro h; cases h
      · intro h; cases h
    | cons b s2 =>
      simp only [lexCompare]
      by_cases hab : a < b
      · simp only [hab, if_true, true_iff]
        exact List.Lex.rel hab
      · by_cases hba : b < a
        · simp only [hab, hba, if_false, if_true]
          constructor
          · intro h; cases h
          · intro h
            cases h with
            | cons h1 => exact absurd hba (lt_irrefl _)
            | rel h1 => exact absurd h1 hab
        · have hEq : a = b := le_antisymm (not_lt.mp hba) (not_lt.mp hab)
          subst hEq
          simp only [hab, if_false, ih]
          constructor
          · intro h; exact List.Lex.cons h
          · intro h
            cases h with
            | cons h1 => exact h1
            | rel h1 => exact absurd h1 hab

theorem deref_append (m x : Mem) (p : Nat) (r : CharRef) (h : deref m p = .ok r) :
    deref (m ++ x) p = .ok r := by
  have hlt := (deref_ok_lt m p r h).1
  unfold deref at h ⊢
  rw [List.get?_eq_getElem?] at h ⊢
  rw [List.getElem?_append_left hlt]
  exact h

theorem memHolds_append_mem (m x : Mem) (l : List Char) :
    ∀ p, MemHolds m p l → MemHolds (m ++ x) p l := by
  induction l with
  | nil => intro p _; trivial
  | cons c l ih =>
    intro p h
    exact ⟨deref_append m x p _ h.1, ih (p + 1) h.2⟩

theorem memHolds_stored (l : List Char) :
    ∀ (pre post : Mem), pre ≠ [] → MemHolds (pre ++ l.map some ++ post) pre.length l := by
  induction l with
  | nil => intro pre post _; trivial
  | cons c l ih =>
    intro pre post hpre
    have hlen : pre.length ≠ 0 := by
      intro h0
      exact hpre (List.length_eq_zero.mp h0)
    refine ⟨?_, ?_⟩
    · have hget : (pre ++ (c :: l).map some ++ post)[pre.length]? = some (some c) := by
        rw [List.append_assoc, List.getElem?_append_right (le_refl _)]
        simp
      unfold deref
      rw [List.get?_eq_getElem?, hget]
      simp [hlen]
    · have := ih (pre ++ [some c]) post (by simp)
      simpa using this

/-- The characters of a constructed `std::string` are in memory at its
`data()`, followed by the terminator. -/
theorem with_string_holds (m : Mem) (s : List Char) :
    MemHolds (with_string m s) (local_string_data m) (s ++ [NUL]) := by
  have := memHolds_stored (s ++ [NUL]) (m ++ [none]) [] (by simp)
  simpa [with_string, string_storage, local_string_data] using this

/-- The test "Test operator <=>" and "Test operator == and !=". -/
theorem test_compare :
    operator_spaceship memCompare ⟨1, 3, default_predicate⟩ ⟨6, 3, default_predicate⟩ = .ok .lt ∧
    operator_eq memCompare ⟨1, 3, default_predicate⟩ ⟨6, 3, default_predicate⟩ = .ok false ∧
    operator_ne memCompare ⟨1, 3, default_predicate⟩ ⟨6, 3, default_predicate⟩ = .ok true := by
  decide

/-- C14: for views `lhs` over `B1` and `rhs` over `B2` (any buffers, any
predicates), `lhs == rhs` is true exactly when the filtered sequences are
equal, `!=` is its negation, and `lhs <=> rhs` is the lexicographic three-way
comparison of the filtered sequences: it is `less` exactly when the first
sequence is lexicographically smaller, and `equal` exactly when `==` is true. -/
theorem comparison_on_filtered_sequences (m : Mem) (lhs rhs : filtered_string_view)
    (B1 B2 : List Char) (h1 : Backed m lhs B1) (h2 : Backed m rhs B2) :
    operator_eq m lhs rhs = .ok (decide (filteredSeq lhs B1 = filteredSeq rhs B2)) ∧
    operator_ne m lhs rhs = .ok (decide (filteredSeq lhs B1 ≠ filteredSeq rhs B2)) ∧
    operator_spaceship m lhs rhs = .ok (lexCompare (filteredSeq lhs B1) (filteredSeq rhs B2)) ∧
    (operator_spaceship m lhs rhs = .ok .lt ↔ filteredSeq lhs B1 < filteredSeq rhs B2) ∧
    (operator_spaceship m lhs rhs = .ok .eq ↔ operator_eq m lhs rhs = .ok true) := by
  have e1 := to_string_spec m lhs B1 h1
  have e2 := to_string_spec m rhs B2 h2
  have heq : operator_eq m lhs rhs = .ok (decide (filteredSeq lhs B1 = filteredSeq rhs B2)) := by
    simp [operator_eq, e1, e2]
  have hsp : operator_spaceship m lhs rhs
      = .ok (lexCompare (filteredSeq lhs B1) (filteredSeq rhs B2)) := by
    simp [operator_spaceship, e1, e2, string_compare_eq_lexCompare]
  refine ⟨heq, ?_, hsp, ?_, ?_⟩
  · simp [operator_ne, heq]
  · rw [hsp, Except.ok.injEq]
    exact lexCompare_lt_iff _ _
  · rw [hsp, heq, Except.ok.injEq, Except.ok.injEq, lexCompare_eq_iff]
    simp

theorem comparison_on_filtered_sequences_witness :
    Backed memCompare ⟨1, 3, default_predicate⟩ "aaa".toList ∧
    Backed memCompare ⟨6, 3, default_predicate⟩ "zzz".toList ∧
    operator_eq memCompare ⟨1, 3, default_predicate⟩ ⟨6, 3, default_predicate⟩
      = .ok (decide (filteredSeq ⟨1, 3, default_predicate⟩ "aaa".toList
          = filteredSeq ⟨6, 3, default_predicate⟩ "zzz".toList)) ∧
    operator_ne memCompare ⟨1, 3, default_predicate⟩ ⟨6, 3, default_predicate⟩
      = .ok (decide (filteredSeq ⟨1, 3, default_predicate⟩ "aaa".toList
          ≠ filteredSeq ⟨6, 3, default_predicate⟩ "zzz".toList)) ∧
    operator_spaceship memCompare ⟨1, 3, default_predicate⟩ ⟨6, 3, default_predicate⟩
      = .ok (lexCompare (filteredSeq ⟨1, 3, default_predicate⟩ "aaa".toList)
          (filteredSeq ⟨6, 3, default_predicate⟩ "zzz".toList)) ∧
    (operator_spaceship memCompare ⟨1, 3, default_predicate⟩ ⟨6, 3, default_predicate⟩ = .ok .lt
      ↔ filteredSeq ⟨1, 3, default_predicate⟩ "aaa".toList
          < filteredSeq ⟨6, 3, default_predicate⟩ "zzz".toList) ∧
    (operator_spaceship memCompare ⟨1, 3, default_predicate⟩ ⟨6, 3, default_predicate⟩ = .ok .eq
      ↔ operator_eq memCompare ⟨1, 3, default_predicate⟩ ⟨6, 3, default_predicate⟩ = .ok true) :=
  ⟨by decide, by decide,
   comparison_on_filtered_sequences memCompare ⟨1, 3, default_predicate⟩
     ⟨6, 3, default_predicate⟩ "aaa".toList "zzz".toList (by decide) (by decide)⟩

/-- C15: for a view `v` over a buffer `B`, the string conversion is the
filtered sequence `s` of `v`; once a `std::string` holding `s` is constructed,
the view built over it by the string constructor with the default predicate
has the string conversion `s`, and `v` still converts to `s`. -/
theorem string_round_trip (m : Mem) (v : filtered_string_view) (B : List Char)
    (h : Backed m v B) :
    filtered_string_view.to_string m v = .ok (filteredSeq v B) ∧
    filtered_string_view.to_string (with_string m (filteredSeq v B))
        (filtered_string_view.of_string (local_string_data m) (filteredSeq v B).length
          default_predicate)
      = .ok (filteredSeq v B) ∧
    filtered_string_view.to_string (with_string m (filteredSeq v B)) v
      = .ok (filteredSeq v B) := by
  refine ⟨to_string_spec m v B h, ?_, ?_⟩
  · have hm := with_string_holds m (filteredSeq v B)
    have hback : Backed (with_string m (filteredSeq v B))
        (filtered_string_view.of_string (local_string_data m) (filteredSeq v B).length
          default_predicate) (filteredSeq v B) :=
      ⟨rfl, memHolds_append_left _ _ [NUL] _ hm⟩
    rw [to_string_spec _ _ _ hback]
    have hall : ∀ L : List CharRef, L.filter default_predicate = L := by
      intro L
      rw [List.filter_eq_self]
      intro r _
      rfl
    have hvals : ∀ (l : List Char) (p : Nat), (refsAt p l).map CharRef.val = l := by
      intro l
      induction l with
      | nil => intro p; rfl
      | cons c l ih => intro p; simp [refsAt, ih]
    simp only [filteredSeq, filteredRefs, filtered_string_view.of_string]
    rw [hall, hvals]
  · have hback : Backed (with_string m (filteredSeq v B)) v B :=
      ⟨h.1, memHolds_append_mem m _ B v.data_ h.2⟩
    exact to_string_spec _ v B hback

theorem string_round_trip_witness :
    Backed memTests ⟨1, 3, onlyA⟩ ['c', 'a', 't'] ∧
    filtered_string_view.to_string memTests ⟨1, 3, onlyA⟩
      = .ok (filteredSeq ⟨1, 3, onlyA⟩ ['c', 'a', 't']) ∧
    filtered_string_view.to_string (with_string memTests (filteredSeq ⟨1, 3, onlyA⟩ ['c', 'a', 't']))
        (filtered_string_view.of_string (local_string_data memTests)
          (filteredSeq ⟨1, 3, onlyA⟩ ['c', 'a', 't']).length default_predicate)
      = .ok (filteredSeq ⟨1, 3, onlyA⟩ ['c', 'a', 't']) ∧
    filtered_string_view.to_string (with_string memTests (filteredSeq ⟨1, 3, onlyA⟩ ['c', 'a', 't']))
        ⟨1, 3, onlyA⟩
      = .ok (filteredSeq ⟨1, 3, onlyA⟩ ['c', 'a', 't']) :=
  ⟨by decide, string_round_trip memTests ⟨1, 3, onlyA⟩ ['c', 'a', 't'] (by decide)⟩

/-! ## The backing buffer of the views returned by the free functions -/

theorem memHolds_drop (m : Mem) (v : filtered_string_view) (B : List Char)
    (h : Terminated m v B) (pos : Nat) (hpos : pos ≤ B.length) :
    MemHolds m (v.data_ + pos) (B.drop pos ++ [NUL]) := by
  have hsplit : B = B.take pos ++ B.drop pos := (List.take_append_drop pos B).symm
  have htl : (B.take pos).length = pos := by simp; omega
  have h2 := h.2
  rw [hsplit, List.append_assoc] at h2
  have := memHolds_append_right m (B.take pos) (B.drop pos ++ [NUL]) v.data_ h2
  rwa [htl] at this

theorem filteredRefs_length_le (v : filtered_string_view) (B : List Char) :
    (filteredRefs v B).length ≤ B.length := by
  unfold filteredRefs
  rw [← refsAt_length B v.data_]
  exact List.length_filter_le _ _

/-- For a start inside the filtered sequence `substr` returns the view that the
`const char*` constructor builds at `data() + pos`. -/
theorem substr_in_range_returns (m : Mem) (empty_literal : Nat) (v : filtered_string_view)
    (B : List Char) (h : Terminated m v B) (hfree : ∀ c ∈ B, c ≠ NUL)
    (hsmall : ((filteredRefs v B).length : Int) < 2 ^ 31)
    (pos count : Int) (h0 : 0 ≤ pos) (h1 : pos < ((filteredRefs v B).length : Int)) :
    ∃ w pred1, substr m empty_literal v pos count = .ok w ∧
      filtered_string_view.of_cstr m (v.data_ + pos.toNat) pred1 = .ok w := by
  have hback : Backed m v B := ⟨h.1, memHolds_append_left m B [NUL] v.data_ h.2⟩
  have hsize := size_spec m v B hback
  have hw : wrap32 ((filteredRefs v B).length : Int) = (filteredRefs v B).length :=
    wrap32_small _ (by omega) hsmall
  have hw2 : wrap32 (((filteredRefs v B).length : Int) - pos)
      = ((filteredRefs v B).length : Int) - pos := wrap32_small _ (by omega) (by omega)
  have hguard : ¬ (pos < 0 ∨ pos ≥ ((filteredRefs v B).length : Int)) := by omega
  by_cases hc : count ≤ 0 ∨ count > ((filteredRefs v B).length : Int) - pos
  · obtain ⟨b, start_it, end_it, w, hb, hs, he, hcs, _⟩ :=
      substr_core m v B h hfree pos.toNat ((filteredRefs v B).length - pos.toNat)
        (by omega) (by omega)
    have hrc : (((filteredRefs v B).length : Int) - pos).toNat
        = (filteredRefs v B).length - pos.toNat := by omega
    refine ⟨w, _, ?_, hcs⟩
    simp only [substr, hsize, ok_bind, hw, hw2, hc, if_true, hguard, if_false, hb, advance,
      h0, filtered_string_view.predicate, filtered_string_view.data]
    have hnn : (0 : Int) ≤ ((filteredRefs v B).length : Int) - pos := by omega
    simp only [hs, ok_bind, hnn, if_true, hrc, he]
    exact hcs
  · obtain ⟨b, start_it, end_it, w, hb, hs, he, hcs, _⟩ :=
      substr_core m v B h hfree pos.toNat count.toNat (by omega) (by omega)
    refine ⟨w, _, ?_, hcs⟩
    simp only [substr, hsize, ok_bind, hw, hw2, hc, if_false, hguard, hb, advance,
      h0, if_true, filtered_string_view.predicate, filtered_string_view.data]
    have hnn : (0 : Int) ≤ count := by omega
    simp only [hs, ok_bind, hnn, if_true, he]
    exact hcs


theorem skipForward_orNul (m : Mem) (pred : filter) :
    ∀ (fuel p : Nat),
      iter.skipForward m (orNul pred) fuel p = iter.skipForward m pred fuel p := by
  intro fuel
  induction fuel with
  | zero => intro p; rfl
  | succ k ih =>
    intro p
    simp only [iter.skipForward]
    cases hd : deref m p with
    | error e => rfl
    | ok c =>
      simp only [ok_bind, ih]
      by_cases hz : c.val = NUL
      · simp [hz, orNul]
      · simp [hz, orNul]

theorem advanceForward_orNul (m : Mem) (pred : filter) :
    ∀ (n p p1 : Nat), advanceForward m n ⟨p, orNul pred⟩ = .ok ⟨p1, orNul pred⟩ →
      advanceForward m n ⟨p, pred⟩ = .ok ⟨p1, pred⟩ := by
  intro n
  induction n with
  | zero =>
    intro p p1 h
    simp only [advanceForward, pure_eq_ok, Except.ok.injEq, iter.mk.injEq] at h
    simp [advanceForward, h.1]
  | succ n ih =>
    intro p p1 h
    simp only [advanceForward, iter.inc, skipForward_orNul] at h
    simp only [advanceForward, iter.inc]
    cases hs : iter.skipForward m pred m.length (p + 1) with
    | error e => rw [hs] at h; simp at h
    | ok q =>
      rw [hs] at h
      simp only [ok_bind, pure_eq_ok] at h ⊢
      exact ih q p1 h

/-- Source: `std::strlen` on a terminated run of characters stops at its first `'\0'`,
inside the run or at its terminator. -/
theorem strlenLoop_le (m : Mem) (l : List Char) :
    ∀ (p fuel n : Nat), MemHolds m p (l ++ [NUL]) → l.length + 1 ≤ fuel →
      ∃ k, k ≤ l.length ∧ strlenLoop m fuel p n = .ok (n + k) ∧
        ((∀ c ∈ l, c ≠ NUL) → k = l.length) := by
  induction l with
  | nil =>
    intro p fuel n h hf
    obtain ⟨k, rfl⟩ : ∃ k, fuel = k + 1 := ⟨fuel - 1, by simp at hf; omega⟩
    have h1 : deref m p = .ok ⟨p, NUL⟩ := h.1
    exact ⟨0, le_refl _, by simp [strlenLoop, h1], fun _ => rfl⟩
  | cons c l ih =>
    intro p fuel n h hf
    obtain ⟨k, rfl⟩ : ∃ k, fuel = k + 1 := ⟨fuel - 1, by simp at hf; omega⟩
    have h1 : deref m p = .ok ⟨p, c⟩ := h.1
    by_cases hc : c = NUL
    · refine ⟨0, Nat.zero_le _, by simp [strlenLoop, h1, hc], ?_⟩
      intro hfree
      exact absurd hc (hfree c (by simp))
    · obtain ⟨j, hj, hrun, hall⟩ := ih (p + 1) k (n + 1) h.2 (by simp at hf; omega)
      refine ⟨j + 1, by simp; omega, ?_, ?_⟩
      · simp [strlenLoop, h1, hc, hrun]
        omega
      · intro hfree
        have := hall (fun d hd => hfree d (by simp [hd]))
        simp [this]

theorem strlen_le (m : Mem) (p : Nat) (l : List Char) (h : MemHolds m p (l ++ [NUL])) :
    ∃ k, k ≤ l.length ∧ strlen m p = .ok k ∧ ((∀ c ∈ l, c ≠ NUL) → k = l.length) := by
  have hb := memHolds_bound m (l ++ [NUL]) p h (by simp)
  obtain ⟨k, hk, hrun, hall⟩ := strlenLoop_le m l p m.length 0 h (by simp at hb; omega)
  exact ⟨k, hk, by simpa [strlen] using hrun, hall⟩

/-- The three iterators of `substr`, on a view whose buffer may hold `'\0'`: the
scans stop on the accepted characters and on every `'\0'`, of which there are
at least as many as accepted characters, so the increments stay inside the
buffer. -/
theorem substr_iterators (m : Mem) (v : filtered_string_view) (B : List Char)
    (h : Terminated m v B) (pos rc : Nat) (hrc : pos + rc ≤ (filteredRefs v B).length) :
    ∃ p0 ps pe, v.begin_ m = .ok ⟨p0, v.pred_⟩ ∧
      advanceForward m pos ⟨p0, v.pred_⟩ = .ok ⟨ps, v.pred_⟩ ∧
      advanceForward m rc ⟨ps, v.pred_⟩ = .ok ⟨pe, v.pred_⟩ := by
  have hT : Terminated m ⟨v.data_, v.size_, orNul v.pred_⟩ B := h
  have hnul : NulAccepted ⟨v.data_, v.size_, orNul v.pred_⟩ B := by
    intro r _ hz
    simp [orNul, hz]
  obtain ⟨p0, hbeg, _, hF⟩ := begin_facing m _ B hT hnul
  have hmono : (filteredRefs v B).length
      ≤ (filteredRefs ⟨v.data_, v.size_, orNul v.pred_⟩ B).length := by
    simp only [filteredRefs, ← List.countP_eq_length_filter]
    apply List.countP_mono_left
    intro r _ hr
    simp [orNul, hr]
  obtain ⟨ps, hadv1, _, hFs, _⟩ :=
    advanceForward_spec m (orNul v.pred_) _ pos p0 _ hF (by omega)
  obtain ⟨pe, hadv2, _, _, _⟩ :=
    advanceForward_spec m (orNul v.pred_) _ rc ps _ hFs (by simp; omega)
  refine ⟨p0, ps, pe, ?_, advanceForward_orNul m v.pred_ pos p0 ps hadv1,
    advanceForward_orNul m v.pred_ rc ps pe hadv2⟩
  simp only [filtered_string_view.begin_, skipForward_orNul] at hbeg
  simp only [filtered_string_view.begin_]
  cases hs : iter.skipForward m v.pred_ m.length v.data_ with
  | error e => rw [hs] at hbeg; simp at hbeg
  | ok q =>
    rw [hs] at hbeg
    simp only [ok_bind, pure_eq_ok, Except.ok.injEq, iter.mk.injEq] at hbeg ⊢
    exact ⟨hbeg.1, trivial⟩

/-- For a start that the guard of `substr` lets through, `0 ≤ pos <
static_cast<int>(size())`, `substr` returns the view that the `const char*`
constructor builds at `data() + pos`; its raw range ends inside the buffer of
the argument, also when that buffer holds `'\0'`. -/
theorem substr_in_range_data (m : Mem) (empty_literal : Nat) (v : filtered_string_view)
    (B : List Char) (h : Terminated m v B)
    (pos count : Int) (h0 : 0 ≤ pos) (h1 : pos < wrap32 ((filteredRefs v B).length : Int)) :
    ∃ w, substr m empty_literal v pos count = .ok w ∧ w.data_ = v.data_ + pos.toNat ∧
      w.data_ + w.size_ ≤ v.data_ + v.size_ ∧
      ((∀ c ∈ B, c ≠ NUL) → w.data_ + w.size_ = v.data_ + v.size_) := by
  have hback : Backed m v B := ⟨h.1, memHolds_append_left m B [NUL] v.data_ h.2⟩
  have hsize := size_spec m v B hback
  have hkle := wrap32_le ((filteredRefs v B).length : Int) (by omega)
  have hklt : wrap32 ((filteredRefs v B).length : Int) < 2 ^ 31 := by
    unfold wrap32
    omega
  obtain ⟨k32, hk32⟩ : ∃ k32, wrap32 ((filteredRefs v B).length : Int) = k32 := ⟨_, rfl⟩
  rw [hk32] at h1 hkle hklt
  have hw2 : wrap32 (k32 - pos) = k32 - pos := wrap32_small _ (by omega) (by omega)
  have hguard : ¬ (pos < 0 ∨ pos ≥ k32) := by omega
  have hle := filteredRefs_length_le v B
  have hpos : pos.toNat ≤ B.length := by omega
  obtain ⟨k, hk, hlen, hall⟩ :=
    strlen_le m (v.data_ + pos.toNat) (B.drop pos.toNat) (memHolds_drop m v B h pos.toNat hpos)
  have hcs : ∀ pred1 : filter,
      filtered_string_view.of_cstr m (v.data_ + pos.toNat) pred1
        = .ok ⟨v.data_ + pos.toNat, k, pred1⟩ := by
    intro pred1
    simp [filtered_string_view.of_cstr, hlen]
  have hin : v.data_ + pos.toNat + k ≤ v.data_ + v.size_ := by
    rw [List.length_drop] at hk
    rw [h.1]
    omega
  have hfull : (∀ c ∈ B, c ≠ NUL) → v.data_ + pos.toNat + k = v.data_ + v.size_ := by
    intro hfree
    have := hall (fun c hc => hfree c (List.mem_of_mem_drop hc))
    rw [List.length_drop] at this
    rw [h.1]
    omega
  by_cases hc : count ≤ 0 ∨ count > k32 - pos
  · obtain ⟨p0, ps, pe, hb, hs, he⟩ :=
      substr_iterators m v B h pos.toNat (k32 - pos).toNat (by omega)
    refine ⟨⟨v.data_ + pos.toNat, k,
      fun c => decide (c.addr ≥ ps) && decide (c.addr < pe) && v.pred_ c⟩, ?_, rfl, hin, hfull⟩
    simp only [substr, hsize, ok_bind, hk32, hw2, filtered_string_view.predicate,
      filtered_string_view.data]
    rw [if_neg hguard, hb, ok_bind]
    simp only [advance]
    rw [if_pos h0, hs, ok_bind, if_pos hc, if_pos (by omega : (0 : Int) ≤ k32 - pos), he, ok_bind]
    exact hcs _
  · obtain ⟨p0, ps, pe, hb, hs, he⟩ :=
      substr_iterators m v B h pos.toNat count.toNat (by omega)
    refine ⟨⟨v.data_ + pos.toNat, k,
      fun c => decide (c.addr ≥ ps) && decide (c.addr < pe) && v.pred_ c⟩, ?_, rfl, hin, hfull⟩
    simp only [substr, hsize, ok_bind, hk32, hw2, filtered_string_view.predicate,
      filtered_string_view.data]
    rw [if_neg hguard, hb, ok_bind]
    simp only [advance]
    rw [if_pos h0, hs, ok_bind, if_neg hc, if_pos (by omega : (0 : Int) ≤ count), he, ok_bind]
    exact hcs _

/-- Source: `compose` on the default-constructed view runs `std::strlen(nullptr)`. -/
theorem compose_null_view_undefined (m : Mem) (filts : List filter) :
    (compose m filtered_string_view.mk_default filts).map (fun w => w.data_)
      = .error .undefined := by
  have hd : deref m 0 = .error .undefined := by simp [deref]
  simp only [compose, filtered_string_view.of_cstr, strlen, filtered_string_view.data,
    filtered_string_view.mk_default]
  cases hm : m.length with
  | zero => rfl
  | succ n => simp [strlenLoop, hd]; rfl

/-- C12, as stated, fails: for a `pos` out of range `substr` returns a view
over the string literal `""` (address 18 here), which is outside the buffer of
its argument (addresses 1 to 4); and the views returned by `split("xax", "x")`
have their data at the local strings (address 20) and at the literal (18),
outside the buffer of the argument (addresses 6 to 9). -/
theorem returned_views_outside_buffer_counterexample :
    (substr memTests 18 ⟨1, 3, default_predicate⟩ 5 0).map
      (fun w => (w.data_, decide (1 ≤ w.data_ ∧ w.data_ ≤ 1 + 3))) = .ok (18, false) ∧
    (split memTests 18 10 ⟨6, 3, default_predicate⟩ ⟨15, 1, default_predicate⟩).map
      (List.map (fun w => (w.data_, decide (6 ≤ w.data_ ∧ w.data_ ≤ 6 + 3))))
      = .ok [(20, false), (20, false), (18, false)] := by
  decide

/-- C12, amended: for every view `v` over a buffer `B` that is followed by the
terminator (`B` may hold `'\0'`), and every list of predicates, `compose(v, fs)`
returns a view with the same `data()` whose raw range lies inside that of `v`;
and for every `pos` that the guard of `substr` lets through, `0 ≤ pos <
static_cast<int>(v.size())`, and every `count`, `substr(v, pos, count)` returns
a view whose `data()` is `v.data() + pos` and whose raw range ends inside that
of `v`. When `B` holds no `'\0'` the raw range of the first is the whole range
of `v` and that of the second ends where that of `v` ends. For a view with
fewer than `2^31` filtered characters `static_cast<int>(v.size())` is
`v.size()`. -/
theorem compose_substr_share_buffer (m : Mem) (empty_literal : Nat)
    (v : filtered_string_view) (B : List Char) (h : Terminated m v B) :
    (∀ filts : List filter, ∃ w, compose m v filts = .ok w ∧ w.data = v.data ∧
      w.data + w.size_ ≤ v.data + v.size_ ∧ ((∀ c ∈ B, c ≠ NUL) → w.size_ = v.size_)) ∧
    (∀ pos count : Int, 0 ≤ pos → pos < wrap32 ((filteredSeq v B).length : Int) →
      ∃ w, substr m empty_literal v pos count = .ok w ∧
        w.data = v.data + pos.toNat ∧ v.data ≤ w.data ∧
        w.data + w.size_ ≤ v.data + v.size_ ∧
        ((∀ c ∈ B, c ≠ NUL) → w.data + w.size_ = v.data + v.size_)) ∧
    (((filteredSeq v B).length : Int) < 2 ^ 31 →
      wrap32 ((filteredSeq v B).length : Int) = (filteredSeq v B).length) := by
  have hlen : (filteredSeq v B).length = (filteredRefs v B).length := by simp [filteredSeq]
  rw [hlen]
  refine ⟨?_, ?_, ?_⟩
  · intro filts
    obtain ⟨k, hk, hstr, hall⟩ := strlen_le m v.data_ B h.2
    refine ⟨⟨v.data_, k, fun c => v.pred_ c && filts.all (fun f => f c)⟩, ?_, rfl, ?_, ?_⟩
    · simp [compose, filtered_string_view.predicate, filtered_string_view.data, compose_pred,
        filtered_string_view.of_cstr, hstr]
    · simp only [filtered_string_view.data, h.1]
      omega
    · intro hfree
      simp only [h.1]
      exact hall hfree
  · intro pos count h0 h1
    obtain ⟨w, hsub, hd, hin, hfull⟩ := substr_in_range_data m empty_literal v B h pos count h0 h1
    refine ⟨w, hsub, hd, ?_, hin, hfull⟩
    simp only [filtered_string_view.data, hd]
    omega
  · intro hsmall
    exact wrap32_small _ (by omega) hsmall

theorem compose_substr_share_buffer_witness :
    Terminated memEmbedded ⟨1, 3, notNul⟩ ['a', NUL, 'b'] ∧
    (∀ filts : List filter, ∃ w, compose memEmbedded ⟨1, 3, notNul⟩ filts = .ok w ∧
      w.data = filtered_string_view.data ⟨1, 3, notNul⟩ ∧
      w.data + w.size_
        ≤ filtered_string_view.data ⟨1, 3, notNul⟩ + filtered_string_view.size_ ⟨1, 3, notNul⟩ ∧
      ((∀ c ∈ ['a', NUL, 'b'], c ≠ NUL) → w.size_ = filtered_string_view.size_ ⟨1, 3, notNul⟩)) ∧
    (∀ pos count : Int, 0 ≤ pos →
      pos < wrap32 ((filteredSeq ⟨1, 3, notNul⟩ ['a', NUL, 'b']).length : Int) →
      ∃ w, substr memEmbedded 6 ⟨1, 3, notNul⟩ pos count = .ok w ∧
        w.data = filtered_string_view.data ⟨1, 3, notNul⟩ + pos.toNat ∧
        filtered_string_view.data ⟨1, 3, notNul⟩ ≤ w.data ∧
        w.data + w.size_
          ≤ filtered_string_view.data ⟨1, 3, notNul⟩ + filtered_string_view.size_ ⟨1, 3, notNul⟩ ∧
        ((∀ c ∈ ['a', NUL, 'b'], c ≠ NUL) →
          w.data + w.size_
            = filtered_string_view.data ⟨1, 3, notNul⟩
              + filtered_string_view.size_ ⟨1, 3, notNul⟩)) ∧
    (((filteredSeq ⟨1, 3, notNul⟩ ['a', NUL, 'b']).length : Int) < 2 ^ 31 →
      wrap32 ((filteredSeq ⟨1, 3, notNul⟩ ['a', NUL, 'b']).length : Int)
        = (filteredSeq ⟨1, 3, notNul⟩ ['a', NUL, 'b']).length) :=
  ⟨by decide,
   compose_substr_share_buffer memEmbedded 6 ⟨1, 3, notNul⟩ ['a', NUL, 'b'] (by decide)⟩

/-- The amended C12 on `std::string("a\0b", 3)` with a predicate that rejects `'\0'`:
`compose` and `substr(v, 1)` return views whose data lies in the buffer of the
argument, addresses 1 to 4. -/
theorem test_share_buffer_embedded :
    (compose memEmbedded ⟨1, 3, notNul⟩ [onlyA]).map (fun w => (w.data_, w.size_)) = .ok (1, 1) ∧
    (substr memEmbedded 6 ⟨1, 3, notNul⟩ 1 0).map (fun w => (w.data_, w.size_)) = .ok (2, 0) ∧
    (substr memEmbedded 6 ⟨1, 3, notNul⟩ 0 0).map (fun w => (w.data_, w.size_)) = .ok (1, 1) := by
  decide


/-! ## Backward scans and reverse iteration -/

theorem behind_addr (m : Mem) (pred : filter) (d p : Nat) (F : List CharRef)
    (h : Behind m pred d p F) : ∀ r ∈ F, d ≤ r.addr ∧ r.addr < p ∧ pred r = true := by
  obtain ⟨l, _, _, he, hF⟩ := h
  intro r hr
  rw [← hF, List.mem_filter] at hr
  have := refsAt_addr l d r hr.1
  exact ⟨this.1, by omega, hr.2⟩

/-- The backward scan from the last raw character stops at the last accepted
character. -/
theorem skipBackward_spec (m : Mem) (pred : filter) (d : Nat) (l : List Char) :
    ∀ (fuel : Nat) (F : List CharRef) (r : CharRef), MemHolds m d l →
      (∀ r ∈ refsAt d l, r.val = NUL → pred r = true) →
      (refsAt d l).filter pred = F ++ [r] → l.length ≤ fuel →
      iter.skipBackward m pred fuel (d + l.length - 1) = .ok r.addr ∧
        deref m r.addr = .ok r ∧ Behind m pred d r.addr F := by
  induction l using List.reverseRecOn with
  | nil =>
    intro fuel F r _ _ hF _
    simp [refsAt] at hF
  | append_singleton l c ih =>
    intro fuel F r hm hnul hF hf
    obtain ⟨k, rfl⟩ : ∃ k, fuel = k + 1 := ⟨fuel - 1, by simp at hf; omega⟩
    have hml : MemHolds m d l := memHolds_append_left m l [c] d hm
    have hmc : deref m (d + l.length) = .ok ⟨d + l.length, c⟩ :=
      (memHolds_append_right m l [c] d hm).1
    have hnull : ∀ r ∈ refsAt d l, r.val = NUL → pred r = true := by
      intro r1 hr1
      exact hnul r1 (by rw [refsAt_append]; exact List.mem_append_left _ hr1)
    have hpos : d + (l ++ [c]).length - 1 = d + l.length := by
      rw [List.length_append, List.length_singleton]
      omega
    rw [hpos]
    rw [refsAt_append, List.filter_append] at hF
    by_cases hacc : pred ⟨d + l.length, c⟩ = true
    · have hlast : (refsAt (d + l.length) [c]).filter pred = [⟨d + l.length, c⟩] := by
        simp [refsAt, List.filter_cons, hacc]
      rw [hlast] at hF
      obtain ⟨hF1, hr⟩ := List.append_inj' hF rfl
      have hr1 : r = ⟨d + l.length, c⟩ := by
        simpa using hr.symm
      subst hr1
      refine ⟨?_, hmc, l, hml, hnull, rfl, hF1⟩
      simp [iter.skipBackward, hmc, hacc]
    · have hlast : (refsAt (d + l.length) [c]).filter pred = [] := by
        simp [refsAt, List.filter_cons, hacc]
      rw [hlast, List.append_nil] at hF
      have hc : c ≠ NUL := by
        intro hc
        apply hacc
        apply hnul ⟨d + l.length, c⟩ _ hc
        rw [refsAt_append]
        exact List.mem_append_right _ (by simp [refsAt])
      have hlpos : 0 < l.length := by
        rcases Nat.eq_zero_or_pos l.length with h0 | h0
        · have : l = [] := List.length_eq_zero.mp h0
          subst this
          simp [refsAt] at hF
        · exact h0
      have := ih k F r hml hnull hF (by simp at hf; omega)
      refine ⟨?_, this.2⟩
      simp only [iter.skipBackward, hmc, ok_bind]
      simp only [hacc, hc, ne_eq, not_false_eq_true, decide_True, Bool.not_false, Bool.and_self,
        if_true]
      exact this.1

/-- Before an accepted character: the decrement moves onto the last accepted
character that precedes the iterator. -/
theorem behind_snoc (m : Mem) (pred : filter) (d p : Nat) (F : List CharRef) (r : CharRef)
    (h : Behind m pred d p (F ++ [r])) :
    iter.dec m ⟨p, pred⟩ = .ok ⟨r.addr, pred⟩ ∧ deref m r.addr = .ok r ∧
      Behind m pred d r.addr F ∧ d ≤ r.addr ∧ r.addr < p ∧ pred r = true := by
  have haddr := behind_addr m pred d p _ h r (by simp)
  obtain ⟨l, hm, hnul, he, hF⟩ := h
  have hsk := skipBackward_spec m pred d l p F r hm hnul hF (by omega)
  rw [he] at hsk
  refine ⟨?_, hsk.2.1, hsk.2.2, haddr.1, haddr.2.1, haddr.2.2⟩
  simp [iter.dec, hsk.1]

/-- The end of a view over `B` has the whole filtered sequence behind it. -/
theorem end_behind (m : Mem) (v : filtered_string_view) (B : List Char)
    (h : Terminated m v B) (hnul : NulAccepted v B) :
    Behind m v.pred_ v.data_ (v.data_ + v.size_) (filteredRefs v B) :=
  ⟨B, memHolds_append_left m B [NUL] v.data_ h.2, hnul, by rw [h.1], rfl⟩

/-- Decrements that do not pass the first accepted character: after `j` of
them the iterator is where it was (`j = 0`) or on an accepted character. -/
theorem advanceBackward_spec (m : Mem) (pred : filter) (d : Nat) :
    ∀ (j p : Nat) (F : List CharRef), Behind m pred d p F → j ≤ F.length →
      ∃ p1, advanceBackward m j ⟨p, pred⟩ = .ok ⟨p1, pred⟩ ∧
        ((j = 0 ∧ p1 = p) ∨
          (∃ r, deref m p1 = .ok r ∧ pred r = true ∧ d ≤ p1 ∧ p1 < p)) := by
  intro j
  induction j with
  | zero =>
    intro p F _ _
    exact ⟨p, rfl, Or.inl ⟨rfl, rfl⟩⟩
  | succ j ih =>
    intro p F h hj
    rcases List.eq_nil_or_concat F with hnil | ⟨F1, r, hF⟩
    · subst hnil; simp at hj
    · subst hF
      rw [List.concat_eq_append] at h hj
      obtain ⟨hdec, hd, hB, hle, hlt, hacc⟩ := behind_snoc m pred d p F1 r h
      obtain ⟨p1, hadv, hrest⟩ := ih r.addr F1 hB (by simp at hj; omega)
      refine ⟨p1, ?_, Or.inr ?_⟩
      · simp [advanceBackward, hdec, hadv]
      · rcases hrest with ⟨_, hp1⟩ | ⟨r1, hr1, hacc1, hle1, hlt1⟩
        · subst hp1
          exact ⟨r, hd, hacc, hle, hlt⟩
        · exact ⟨r1, hr1, hacc1, hle1, by omega⟩

theorem appendRangeReverse_spec (m : Mem) (pred pred1 : filter) (d bpc : Nat)
    (F : List CharRef) :
    ∀ (p fuel : Nat) (out : List Char), Behind m pred d p F → (F = [] → p = bpc) →
      (∀ r F1, F = r :: F1 → r.addr = bpc) → F.length + 1 ≤ fuel →
      appendRangeReverse m ⟨⟨bpc, pred1⟩⟩ fuel ⟨⟨p, pred⟩⟩ out
        = .ok (out ++ F.reverse.map CharRef.val) := by
  induction F using List.reverseRecOn with
  | nil =>
    intro p fuel out _ hp _ hf
    obtain ⟨k, rfl⟩ : ∃ k, fuel = k + 1 := ⟨fuel - 1, by simp at hf; omega⟩
    simp [appendRangeReverse, reverse_iterator.eq, iter.eq, hp rfl]
  | append_singleton F r ih =>
    intro p fuel out h _ hhead hf
    obtain ⟨k, rfl⟩ : ∃ k, fuel = k + 1 := ⟨fuel - 1, by simp at hf; omega⟩
    obtain ⟨hdec, hd, hB, _, hlt, _⟩ := behind_snoc m pred d p F r h
    have hne : ¬ p = bpc := by
      cases F with
      | nil =>
        have := hhead r [] rfl
        omega
      | cons r0 F0 =>
        have h0 := hhead r0 (F0 ++ [r]) rfl
        have := (behind_addr m pred d p _ h r0 (by simp)).2.1
        omega
    have hnext := ih r.addr k (out ++ [r.val]) hB
      (by intro hF; subst hF; exact hhead r [] rfl)
      (by intro r0 F0 hF; subst hF; exact hhead r0 (F0 ++ [r]) rfl)
      (by simp at hf; omega)
    simp [appendRangeReverse, reverse_iterator.eq, iter.eq, hne, reverse_iterator.star,
      reverse_iterator.inc, hdec, iter.star, hd, hnext]

/-! ## Claims on reverse iteration and on where iterators rest -/

/-- The test "Test again iterator begin and end": the reverse walk over "milo"
without `i` and `o` gives `l`, `m`. -/
theorem test_reverse_milo :
    (filtered_string_view.rend memCompare ⟨11, 4, notIO⟩ >>= fun re =>
      appendRangeReverse memCompare re 10 (filtered_string_view.rbegin ⟨11, 4, notIO⟩) [])
      = .ok ['l', 'm'] := by
  decide

/-- C18, as stated, fails on a view over `std::string("a\0b", 3)` whose
predicate rejects `'\0'`: `size()` is 2 and the filtered sequence is `a`, `b`,
but the walk from `rbegin()` to `rend()` visits 3 characters, `b`, `'\0'`,
`a`. -/
theorem reverse_walk_counterexample :
    Terminated memEmbedded ⟨1, 3, notNul⟩ ['a', NUL, 'b'] ∧
    filtered_string_view.size memEmbedded ⟨1, 3, notNul⟩ = .ok 2 ∧
    filtered_string_view.to_string memEmbedded ⟨1, 3, notNul⟩ = .ok ['a', 'b'] ∧
    (filtered_string_view.rend memEmbedded ⟨1, 3, notNul⟩ >>= fun re =>
      appendRangeReverse memEmbedded re 7 (filtered_string_view.rbegin ⟨1, 3, notNul⟩) [])
      = .ok ['b', NUL, 'a'] := by
  decide

/-- C18, amended: for a view `v` over a buffer `B` that is followed by the
terminator and in which every `'\0'` is accepted by the predicate (so for every
buffer without `'\0'`), whatever runs of rejected characters the buffer starts
or ends with, the walk from `rbegin()` to `rend()` visits exactly the filtered
sequence in reverse order, that is `size()` characters. -/
theorem reverse_walk_is_reversed_sequence (m : Mem) (v : filtered_string_view) (B : List Char)
    (h : Terminated m v B) (hnul : NulAccepted v B) :
    ∃ re, v.rend m = .ok re ∧
      appendRangeReverse m re (m.length + 1) v.rbegin [] = .ok (filteredSeq v B).reverse ∧
      filtered_string_view.size m v = .ok (filteredSeq v B).reverse.length := by
  have hback : Backed m v B := ⟨h.1, memHolds_append_left m B [NUL] v.data_ h.2⟩
  obtain ⟨p0, hbeg, _, hF⟩ := begin_facing m v B h hnul
  have hbound := facing_bound m v.pred_ _ p0 _ hF
  have hB := end_behind m v B h hnul
  have hempty : filteredRefs v B = [] → v.data_ + v.size_ = p0 := by
    intro he
    rw [he] at hF
    exact (facing_nil m v.pred_ _ p0 hF).symm
  have hhead : ∀ r F1, filteredRefs v B = r :: F1 → r.addr = p0 := by
    intro r F1 he
    rw [he] at hF
    exact (facing_cons m v.pred_ _ p0 r F1 hF).1
  have hwalk := appendRangeReverse_spec m v.pred_ v.pred_ v.data_ p0 (filteredRefs v B)
    (v.data_ + v.size_) (m.length + 1) [] hB hempty hhead (by omega)
  refine ⟨⟨⟨p0, v.pred_⟩⟩, ?_, ?_, ?_⟩
  · simp [filtered_string_view.rend, hbeg]
  · simpa [filtered_string_view.rbegin, filtered_string_view.end_, filteredSeq,
      List.map_reverse] using hwalk
  · rw [size_spec m v B hback]
    simp [filteredSeq]

theorem reverse_walk_is_reversed_sequence_witness :
    Terminated memCompare ⟨11, 4, notIO⟩ "milo".toList ∧
    NulAccepted ⟨11, 4, notIO⟩ "milo".toList ∧
    ∃ re, filtered_string_view.rend memCompare ⟨11, 4, notIO⟩ = .ok re ∧
      appendRangeReverse memCompare re (memCompare.length + 1)
          (filtered_string_view.rbegin ⟨11, 4, notIO⟩) []
        = .ok (filteredSeq ⟨11, 4, notIO⟩ "milo".toList).reverse ∧
      filtered_string_view.size memCompare ⟨11, 4, notIO⟩
        = .ok (filteredSeq ⟨11, 4, notIO⟩ "milo".toList).reverse.length :=
  ⟨by decide, by decide,
   reverse_walk_is_reversed_sequence memCompare ⟨11, 4, notIO⟩ "milo".toList
     (by decide) (by decide)⟩

/-- C19, as stated, fails on a view over `std::string("a\0b", 3)` whose
predicate rejects `'\0'`: `begin()` incremented once, and `end()` decremented
twice, rest at raw position 1 (address 2), inside the buffer, on the `'\0'`
that the predicate rejects. -/
theorem iterator_rests_on_rejected_counterexample :
    Terminated memEmbedded ⟨1, 3, notNul⟩ ['a', NUL, 'b'] ∧
    (filtered_string_view.begin_ memEmbedded ⟨1, 3, notNul⟩ >>= fun b =>
      advance memEmbedded b 1 >>= fun it => it.star memEmbedded) = .ok ⟨2, NUL⟩ ∧
    (advance memEmbedded (filtered_string_view.end_ ⟨1, 3, notNul⟩) (-2) >>= fun it =>
      it.star memEmbedded) = .ok ⟨2, NUL⟩ ∧
    notNul ⟨2, NUL⟩ = false ∧ 2 < 1 + 3 := by
  decide

/-- C19, amended: for a view `v` over a buffer `B` of raw length `n` that is
followed by the terminator and in which every `'\0'` is accepted by the
predicate, `begin()`, every iterator reached from `begin()` by at most `size()`
increments and every iterator reached from `end()` by at most `size()`
decrements is at raw position `n` or at a raw position below `n` whose
character the predicate accepts. -/
theorem iterators_rest_on_accepted (m : Mem) (v : filtered_string_view) (B : List Char)
    (h : Terminated m v B) (hnul : NulAccepted v B) :
    filtered_string_view.size m v = .ok (filteredSeq v B).length ∧
    ∃ b, v.begin_ m = .ok b ∧ RestsWell m v b ∧
      (∀ i : Nat, i ≤ (filteredSeq v B).length →
        ∃ it, advance m b i = .ok it ∧ RestsWell m v it) ∧
      (∀ j : Nat, j ≤ (filteredSeq v B).length →
        ∃ it, advance m v.end_ (-(j : Int)) = .ok it ∧ RestsWell m v it) := by
  have hback : Backed m v B := ⟨h.1, memHolds_append_left m B [NUL] v.data_ h.2⟩
  have hlen : (filteredSeq v B).length = (filteredRefs v B).length := by simp [filteredSeq]
  obtain ⟨p0, hbeg, hp0, hF⟩ := begin_facing m v B h hnul
  have hB := end_behind m v B h hnul
  have hfwd : ∀ i : Nat, i ≤ (filteredRefs v B).length →
      ∃ it, advanceForward m i ⟨p0, v.pred_⟩ = .ok it ∧ RestsWell m v it := by
    intro i hi
    obtain ⟨p1, hadv, hle, hF1, _⟩ :=
      advanceForward_spec m v.pred_ _ i p0 (filteredRefs v B) hF hi
    refine ⟨⟨p1, v.pred_⟩, hadv, ?_⟩
    cases hdrop : (filteredRefs v B).drop i with
    | nil =>
      rw [hdrop] at hF1
      exact Or.inl (facing_nil m v.pred_ _ p1 hF1)
    | cons r rest =>
      rw [hdrop] at hF1
      obtain ⟨_, hd, hlt, _⟩ := facing_cons m v.pred_ _ p1 r rest hF1
      have hacc := (facing_addr m v.pred_ _ p1 _ hF1 r (by simp)).2.2
      exact Or.inr ⟨by show v.data_ ≤ p1; omega, hlt, r, hd, hacc⟩
  refine ⟨by rw [size_spec m v B hback, hlen], ⟨p0, v.pred_⟩, hbeg, ?_, ?_, ?_⟩
  · obtain ⟨it, hadv, hr⟩ := hfwd 0 (Nat.zero_le _)
    simp only [advanceForward, pure_eq_ok, Except.ok.injEq] at hadv
    rw [hadv]
    exact hr
  · intro i hi
    rw [hlen] at hi
    obtain ⟨it, hadv, hr⟩ := hfwd i hi
    exact ⟨it, by simpa [advance] using hadv, hr⟩
  · intro j hj
    rw [hlen] at hj
    obtain ⟨p1, hadv, hrest⟩ :=
      advanceBackward_spec m v.pred_ v.data_ j (v.data_ + v.size_) (filteredRefs v B) hB hj
    refine ⟨⟨p1, v.pred_⟩, ?_, ?_⟩
    · rcases Nat.eq_zero_or_pos j with h0 | h0
      · subst h0
        simpa [advance, advanceForward, advanceBackward, filtered_string_view.end_] using hadv
      · have hneg : ¬ (0 : Int) ≤ -(j : Int) := by omega
        have htn : (-(-(j : Int))).toNat = j := by omega
        simp only [advance, hneg, if_false, htn]
        exact hadv
    · rcases hrest with ⟨_, hp1⟩ | ⟨r, hd, hacc, hle, hlt⟩
      · exact Or.inl hp1
      · exact Or.inr ⟨hle, hlt, r, hd, hacc⟩

theorem iterators_rest_on_accepted_witness :
    Terminated memCompare ⟨11, 4, notIO⟩ "milo".toList ∧
    NulAccepted ⟨11, 4, notIO⟩ "milo".toList ∧
    filtered_string_view.size memCompare ⟨11, 4, notIO⟩
      = .ok (filteredSeq ⟨11, 4, notIO⟩ "milo".toList).length ∧
    ∃ b, filtered_string_view.begin_ memCompare ⟨11, 4, notIO⟩ = .ok b ∧
      RestsWell memCompare ⟨11, 4, notIO⟩ b ∧
      (∀ i : Nat, i ≤ (filteredSeq ⟨11, 4, notIO⟩ "milo".toList).length →
        ∃ it, advance memCompare b i = .ok it ∧ RestsWell memCompare ⟨11, 4, notIO⟩ it) ∧
      (∀ j : Nat, j ≤ (filteredSeq ⟨11, 4, notIO⟩ "milo".toList).length →
        ∃ it, advance memCompare (filtered_string_view.end_ ⟨11, 4, notIO⟩) (-(j : Int)) = .ok it ∧
          RestsWell memCompare ⟨11, 4, notIO⟩ it) :=
  ⟨by decide, by decide,
   iterators_rest_on_accepted memCompare ⟨11, 4, notIO⟩ "milo".toList (by decide) (by decide)⟩

/-! ## Termination of `split` -/

/-- With the empty token, an iteration of the loop of `split` on "ab" that
starts at the first character pushes one view and leaves `it` and `start`
where they were, so no number of iterations ends the loop. -/
theorem splitLoop_empty_token_stuck :
    ∀ (fuel : Nat) (result : List filtered_string_view),
      splitLoop memSplit 16 ⟨6, 2, default_predicate⟩ ⟨16, default_predicate⟩
        ⟨16, default_predicate⟩ ⟨7, default_predicate⟩ fuel
        ⟨6, default_predicate⟩ ⟨6, default_predicate⟩ result = .error .timeout := by
  intro fuel
  induction fuel with
  | zero => intro result; rfl
  | succ k ih =>
    intro result
    have hs : search memSplit ⟨6, default_predicate⟩
        (filtered_string_view.end_ ⟨6, 2, default_predicate⟩)
        ⟨16, default_predicate⟩ ⟨16, default_predicate⟩ = .ok ⟨6, default_predicate⟩ := rfl
    have ha : appendRange memSplit ⟨6, default_predicate⟩ (memSplit.length + 1)
        ⟨6, default_predicate⟩ [] = .ok [] := rfl
    have hd : distance memSplit ⟨16, default_predicate⟩ ⟨16, default_predicate⟩ = .ok 0 := rfl
    have hadv : advance memSplit ⟨6, default_predicate⟩ ((0 : Nat) : Int)
        = .ok ⟨6, default_predicate⟩ := rfl
    have e1 : iter.eq ⟨6, default_predicate⟩
        (filtered_string_view.end_ ⟨6, 2, default_predicate⟩) = false := rfl
    have e2 : iter.eq ⟨6, default_predicate⟩ ⟨7, default_predicate⟩ = false := rfl
    simp only [splitLoop, e1, hs, ok_bind, e2, ha, hd, hadv]
    exact ih _

/-- C20 at `split("ab", "")`: the token has an empty filtered sequence,
`std::search` finds it at `it`, `it` and `start` are advanced by 0, and the
loop pushes a view on every iteration without ever reaching `fsv.end()`:
whatever the number of iterations allowed, `split` has not returned. On the
one-character view "a" the same token does return (one view). -/
theorem split_empty_token_never_returns :
    filtered_string_view.to_string memSplit ⟨6, 2, default_predicate⟩ = .ok ['a', 'b'] ∧
    filtered_string_view.to_string memSplit ⟨16, 0, default_predicate⟩ = .ok [] ∧
    (∀ fuel : Nat,
      split memSplit 16 fuel ⟨6, 2, default_predicate⟩ ⟨16, 0, default_predicate⟩
        = .error .timeout) ∧
    (split memSplit 16 10 ⟨10, 1, default_predicate⟩ ⟨16, 0, default_predicate⟩).map List.length
      = .ok 1 := by
  refine ⟨by decide, by decide, ?_, by decide⟩
  intro fuel
  exact splitLoop_empty_token_stuck fuel []

/-! ## Suffixes of suffixes -/

/-- The view `substr` builds, for a start inside the filtered sequence and a
number `rc` of characters that does not overrun it: its data, its raw length,
and the references its predicate accepts. -/
theorem substr_core_refs (m : Mem) (v : filtered_string_view) (B : List Char)
    (h : Terminated m v B) (hfree : ∀ c ∈ B, c ≠ NUL) (pos rc : Nat)
    (hpos : pos < (filteredRefs v B).length) (hrc : pos + rc ≤ (filteredRefs v B).length) :
    ∃ p0 ps pe, v.begin_ m = .ok ⟨p0, v.pred_⟩ ∧
      advanceForward m pos ⟨p0, v.pred_⟩ = .ok ⟨ps, v.pred_⟩ ∧
      advanceForward m rc ⟨ps, v.pred_⟩ = .ok ⟨pe, v.pred_⟩ ∧
      filtered_string_view.of_cstr m (v.data_ + pos)
        (fun c => decide (c.addr ≥ ps) && decide (c.addr < pe) && v.pred_ c)
        = .ok ⟨v.data_ + pos, (B.drop pos).length,
            fun c => decide (c.addr ≥ ps) && decide (c.addr < pe) && v.pred_ c⟩ ∧
      (refsAt (v.data_ + pos) (B.drop pos)).filter
          (fun c => decide (c.addr ≥ ps) && decide (c.addr < pe) && v.pred_ c)
        = ((filteredRefs v B).drop pos).take rc := by
  have hnul : NulAccepted v B := by
    intro r hr hz
    have hv : r.val ∈ B := by
      clear hpos hrc h
      generalize v.data_ = p at hr
      induction B generalizing p with
      | nil => simp [refsAt] at hr
      | cons c l ih =>
        simp only [refsAt, List.mem_cons] at hr
        rcases hr with rfl | hr
        · simp
        · exact List.mem_cons_of_mem _ (ih (fun d hd => hfree d (by simp [hd])) (p + 1) hr)
    exact absurd hz (hfree _ hv)
  obtain ⟨p0, hbeg, hp0, hF⟩ := begin_facing m v B h hnul
  obtain ⟨ps, hadv1, hps, hFs, hbefore⟩ :=
    advanceForward_spec m v.pred_ _ pos p0 (filteredRefs v B) hF (le_of_lt hpos)
  obtain ⟨pe, hadv2, _, hFe, hmid⟩ :=
    advanceForward_spec m v.pred_ _ rc ps ((filteredRefs v B).drop pos) hFs
      (by simp; omega)
  have hBlen : (filteredRefs v B).length ≤ B.length := by
    unfold filteredRefs
    rw [← refsAt_length B v.data_]
    exact List.length_filter_le _ _
  have hsplit : B = B.take pos ++ B.drop pos := (List.take_append_drop pos B).symm
  have htl : (B.take pos).length = pos := by simp; omega
  have hmem : MemHolds m (v.data_ + pos) (B.drop pos ++ [NUL]) := by
    have h2 := h.2
    rw [hsplit, List.append_assoc] at h2
    have := memHolds_append_right m (B.take pos) (B.drop pos ++ [NUL]) v.data_ h2
    rwa [htl] at this
  have hfree1 : ∀ c ∈ B.drop pos, c ≠ NUL := fun c hc => hfree c (List.mem_of_mem_drop hc)
  have hcstr := of_cstr_spec m (v.data_ + pos) (B.drop pos)
    (fun c => decide (c.addr ≥ ps) && decide (c.addr < pe) && v.pred_ c) hmem hfree1
  refine ⟨p0, ps, pe, hbeg, hadv1, hadv2, hcstr, ?_⟩
  -- the accepted characters of the narrowed buffer are those of the whole buffer in range
  have hrefs : refsAt v.data_ B = refsAt v.data_ (B.take pos) ++ refsAt (v.data_ + pos) (B.drop pos) := by
    conv_lhs => rw [hsplit]
    rw [refsAt_append, htl]
  have hfirst : ∀ r ∈ (refsAt v.data_ (B.take pos)).filter v.pred_, r.addr < ps := by
    intro r hr
    have := refsAt_addr (B.take pos) v.data_ r (List.mem_filter.mp hr).1
    rw [htl] at this
    omega
  have hcomm : ∀ L : List CharRef,
      L.filter (fun c => decide (c.addr ≥ ps) && decide (c.addr < pe) && v.pred_ c)
        = (L.filter v.pred_).filter (fun c => decide (c.addr ≥ ps) && decide (c.addr < pe)) := by
    intro L
    rw [List.filter_filter]
  rw [hcomm]
  have hwhole : ((refsAt v.data_ B).filter v.pred_).filter
        (fun c => decide (c.addr ≥ ps) && decide (c.addr < pe))
      = ((refsAt (v.data_ + pos) (B.drop pos)).filter v.pred_).filter
        (fun c => decide (c.addr ≥ ps) && decide (c.addr < pe)) := by
    rw [hrefs, List.filter_append, List.filter_append]
    have : ((refsAt v.data_ (B.take pos)).filter v.pred_).filter
        (fun c => decide (c.addr ≥ ps) && decide (c.addr < pe)) = [] := by
      rw [List.filter_eq_nil_iff]
      intro r hr
      have := hfirst r hr
      simp; omega
    rw [this, List.nil_append]
  rw [← hwhole]
  have hdecomp : filteredRefs v B
      = (filteredRefs v B).take pos ++ ((filteredRefs v B).drop pos).take rc
          ++ ((filteredRefs v B).drop pos).drop rc := by
    rw [List.append_assoc, List.take_append_drop, List.take_append_drop]
  have hgoal : (filteredRefs v B).filter (fun c => decide (c.addr ≥ ps) && decide (c.addr < pe))
      = ((filteredRefs v B).drop pos).take rc := by
    conv_lhs => rw [hdecomp]
    apply filter_range_mid
    · exact hbefore
    · intro r hr
      exact ⟨(facing_addr m v.pred_ _ ps _ hFs r (List.mem_of_mem_take hr)).1, hmid r hr⟩
    · intro r hr
      exact (facing_addr m v.pred_ _ pe _ hFe r hr).1
  exact hgoal

theorem wrap32_range (z : Int) : -(2 ^ 31) ≤ wrap32 z ∧ wrap32 z < 2 ^ 31 := by
  unfold wrap32
  omega

/-- What `substr(v, pos)` returns for any `pos ≥ 0`, with `k` the value of
`static_cast<int>(size())`: a view over a buffer without `'\0'` that accepts
the references `F[pos .. k)` of the filtered sequence `F` of `v`. -/
theorem substr_suffix (m : Mem) (empty_literal : Nat) (v : filtered_string_view)
    (B : List Char) (hB : Backed m v B)
    (hterm : v.size_ ≠ 0 → MemHolds m v.data_ (B ++ [NUL])) (hfree : ∀ c ∈ B, c ≠ NUL)
    (hlit : deref m empty_literal = .ok ⟨empty_literal, NUL⟩) (pos : Int) (h0 : 0 ≤ pos) :
    ∃ w B1, substr m empty_literal v pos 0 = .ok w ∧ Backed m w B1 ∧
      (w.size_ ≠ 0 → MemHolds m w.data_ (B1 ++ [NUL])) ∧ (∀ c ∈ B1, c ≠ NUL) ∧
      filteredRefs w B1
        = ((filteredRefs v B).drop pos.toNat).take
            (wrap32 ((filteredRefs v B).length : Int) - pos).toNat := by
  have hsize := size_spec m v B hB
  have hk := wrap32_le ((filteredRefs v B).length : Int) (by omega)
  have hkr := wrap32_range ((filteredRefs v B).length : Int)
  obtain ⟨k, hkdef⟩ : ∃ k : Int, wrap32 ((filteredRefs v B).length : Int) = k := ⟨_, rfl⟩
  rw [hkdef] at hk hkr
  rw [hkdef]
  by_cases hg : pos ≥ k
  · have hguard : pos < 0 ∨ pos ≥ k := Or.inr hg
    have hc := of_cstr_literal m empty_literal v.pred_ hlit
    refine ⟨⟨empty_literal, 0, v.pred_⟩, [], ?_, ⟨rfl, trivial⟩, ?_, ?_, ?_⟩
    · simp only [substr, hsize, ok_bind, filtered_string_view.predicate, hkdef]
      rw [if_pos hguard]
      exact hc
    · intro hne; exact absurd rfl hne
    · intro c hc; simp at hc
    · have hz : (k - pos).toNat = 0 := by omega
      rw [hz]
      simp [filteredRefs, refsAt]
  · have hguard : ¬ (pos < 0 ∨ pos ≥ k) := by omega
    have hle := filteredRefs_length_le v B
    have hsz : v.size_ ≠ 0 := by
      rw [hB.1]
      omega
    have hT : Terminated m v B := ⟨hB.1, hterm hsz⟩
    have hw2 : wrap32 (k - pos) = k - pos := wrap32_small _ (by omega) (by omega)
    obtain ⟨rc, hrc⟩ : ∃ rc : Nat, (k - pos).toNat = rc := ⟨_, rfl⟩
    obtain ⟨a, ha⟩ : ∃ a : Nat, pos.toNat = a := ⟨_, rfl⟩
    rw [hrc, ha]
    obtain ⟨p0, ps, pe, hb, hs, he, hcs, hrefs⟩ :=
      substr_core_refs m v B hT hfree a rc (by omega) (by omega)
    have hmem := memHolds_drop m v B hT a (by omega)
    refine ⟨⟨v.data_ + a, (B.drop a).length,
        fun c => decide (c.addr ≥ ps) && decide (c.addr < pe) && v.pred_ c⟩, B.drop a, ?_,
      ⟨rfl, memHolds_append_left m (B.drop a) [NUL] (v.data_ + a) hmem⟩,
      fun _ => hmem, fun c hc => hfree c (List.mem_of_mem_drop hc), hrefs⟩
    have hcnt : ((0 : Int) ≤ 0 ∨ (0 : Int) > wrap32 (k - pos)) := Or.inl (le_refl 0)
    have hnn : (0 : Int) ≤ k - pos := by omega
    simp only [substr, hsize, ok_bind, hkdef]
    rw [if_neg hguard, hb]
    simp only [ok_bind, advance]
    rw [if_pos h0, ha, hs]
    simp only [ok_bind]
    rw [if_pos hcnt, hw2, if_pos hnn, hrc, he]
    simp only [ok_bind, filtered_string_view.predicate, filtered_string_view.data, ha]
    exact hcs

/-- For a negative `pos`, `substr` returns the view over the literal `""`. -/
theorem substr_negative (m : Mem) (empty_literal : Nat) (v : filtered_string_view)
    (B : List Char) (hB : Backed m v B)
    (hlit : deref m empty_literal = .ok ⟨empty_literal, NUL⟩) (pos count : Int) (hneg : pos < 0) :
    substr m empty_literal v pos count = .ok ⟨empty_literal, 0, v.pred_⟩ := by
  have hsize := size_spec m v B hB
  have hc := of_cstr_literal m empty_literal v.pred_ hlit
  have hguard : pos < 0 ∨ pos ≥ wrap32 ((filteredRefs v B).length : Int) := Or.inl hneg
  simp only [substr, hsize, ok_bind, filtered_string_view.predicate]
  rw [if_pos hguard]
  exact hc

/-- A slice of a slice of a list, with the bounds `substr` computes. -/
theorem slice_of_slice (F : List CharRef) (k a b : Int) (ha : 0 ≤ a) (hb : 0 ≤ b)
    (hk : k ≤ (F.length : Int)) (hk2 : k < 2 ^ 31) :
    (((F.drop a.toNat).take (k - a).toNat).drop b.toNat).take
        (wrap32 ((((F.drop a.toNat).take (k - a).toNat).length : Nat) : Int) - b).toNat
      = (F.drop (a + b).toNat).take (k - (a + b)).toNat := by
  by_cases hka : k - a ≤ 0
  · have h1 : (k - a).toNat = 0 := by omega
    have h2 : (k - (a + b)).toNat = 0 := by omega
    rw [h1, h2]
    simp
  · have hlen : ((F.drop a.toNat).take (k - a).toNat).length = (k - a).toNat := by
      rw [List.length_take, List.length_drop]
      omega
    have hw : wrap32 (((k - a).toNat : Nat) : Int) = k - a := by
      have : (((k - a).toNat : Nat) : Int) = k - a := by omega
      rw [this]
      exact wrap32_small _ (by omega) (by omega)
    rw [hlen, hw, List.drop_take, List.take_take, List.drop_drop]
    have e1 : a.toNat + b.toNat = (a + b).toNat := by omega
    have e2 : min (k - a - b).toNat ((k - a).toNat - b.toNat) = (k - (a + b)).toNat := by omega
    rw [e1, e2]

/-! ## Claim on suffixes of suffixes -/

/-- The test "Test substr function", taken in two steps: `substr(substr(sv, 4), 5)`
is "Husky", as `substr(sv, 9)` is. -/
theorem test_substr_twice :
    (substr memDogs 42 ⟨1, 14, default_predicate⟩ 4 0 >>= fun w =>
      substr memDogs 42 w 5 0 >>= fun w2 => filtered_string_view.to_string memDogs w2)
      = .ok "Husky".toList := by
  decide

/-- C21: for a view `v` over a buffer `B` without `'\0'` (followed by the
terminator when it is not empty) and all `a ≥ 0`, `b ≥ 0`,
`substr(substr(v, a), b)` and `substr(v, a + b)` both return a view and the
two filtered sequences are the same, also when the `int` sum `a + b` wraps;
when `v` has fewer than `2^31` filtered characters that sequence is the
filtered sequence of `v` from index `a + b` on. -/
theorem substr_of_substr_is_substr (m : Mem) (empty_literal : Nat)
    (v : filtered_string_view) (B : List Char) (hB : Backed m v B)
    (hterm : v.size_ ≠ 0 → MemHolds m v.data_ (B ++ [NUL])) (hfree : ∀ c ∈ B, c ≠ NUL)
    (hlit : deref m empty_literal = .ok ⟨empty_literal, NUL⟩)
    (a b : Int) (ha : 0 ≤ a) (hb : 0 ≤ b) :
    ∃ s1,
      (substr m empty_literal v a 0 >>= fun w =>
        substr m empty_literal w b 0 >>= fun w2 => filtered_string_view.to_string m w2)
        = .ok s1 ∧
      (substr m empty_literal v (a + b) 0 >>= fun w => filtered_string_view.to_string m w)
        = .ok s1 ∧
      (a < 2 ^ 31 → b < 2 ^ 31 →
        (substr m empty_literal v (wrap32 (a + b)) 0 >>= fun w =>
          filtered_string_view.to_string m w) = .ok s1) ∧
      (((filteredSeq v B).length : Int) < 2 ^ 31 →
        s1 = (filteredSeq v B).drop (a + b).toNat) := by
  have hk := wrap32_le ((filteredRefs v B).length : Int) (by omega)
  have hkr := wrap32_range ((filteredRefs v B).length : Int)
  obtain ⟨w1, B1, hw1, hB1, ht1, hf1, hF1⟩ :=
    substr_suffix m empty_literal v B hB hterm hfree hlit a ha
  obtain ⟨w2, B2, hw2, hB2, _, _, hF2⟩ :=
    substr_suffix m empty_literal w1 B1 hB1 ht1 hf1 hlit b hb
  obtain ⟨w3, B3, hw3, hB3, _, _, hF3⟩ :=
    substr_suffix m empty_literal v B hB hterm hfree hlit (a + b) (by omega)
  have hsame : filteredRefs w2 B2 = filteredRefs w3 B3 := by
    rw [hF2, hF1, hF3]
    exact slice_of_slice (filteredRefs v B) _ a b ha hb hk hkr.2
  have h3 : (substr m empty_literal v (a + b) 0 >>= fun w =>
      filtered_string_view.to_string m w) = .ok (filteredSeq w3 B3) := by
    rw [hw3, ok_bind]
    exact to_string_spec m w3 B3 hB3
  refine ⟨filteredSeq w3 B3, ?_, h3, ?_, ?_⟩
  · rw [hw1, ok_bind, hw2, ok_bind, to_string_spec m w2 B2 hB2]
    simp only [filteredSeq, hsame]
  · intro ha2 hb2
    by_cases hsum : a + b < 2 ^ 31
    · rw [wrap32_small (a + b) (by omega) hsum]
      exact h3
    · have hneg : wrap32 (a + b) < 0 := by
        unfold wrap32
        omega
      rw [substr_negative m empty_literal v B hB hlit _ 0 hneg, ok_bind]
      have he : filteredSeq w3 B3 = [] := by
        have hz : (wrap32 ((filteredRefs v B).length : Int) - (a + b)).toNat = 0 := by omega
        simp only [filteredSeq, hF3, hz, List.take_zero, List.map_nil]
      rw [he]
      rfl
  · intro hsmall
    have hlen : (filteredSeq v B).length = (filteredRefs v B).length := by simp [filteredSeq]
    rw [hlen] at hsmall
    have hw : wrap32 ((filteredRefs v B).length : Int) = (filteredRefs v B).length :=
      wrap32_small _ (by omega) hsmall
    have hle : ((filteredRefs v B).drop (a + b).toNat).length
        ≤ (((filteredRefs v B).length : Int) - (a + b)).toNat := by
      rw [List.length_drop]
      omega
    simp only [filteredSeq, hF3, hw, List.take_of_length_le hle, List.map_drop]

theorem substr_of_substr_is_substr_witness :
    Backed memTests ⟨1, 3, default_predicate⟩ ['c', 'a', 't'] ∧
    ((3 : Nat) ≠ 0 → MemHolds memTests 1 (['c', 'a', 't'] ++ [NUL])) ∧
    (∀ c ∈ ['c', 'a', 't'], c ≠ NUL) ∧
    deref memTests 18 = .ok ⟨18, NUL⟩ ∧
    ∃ s1,
      (substr memTests 18 ⟨1, 3, default_predicate⟩ 1 0 >>= fun w =>
        substr memTests 18 w 1 0 >>= fun w2 => filtered_string_view.to_string memTests w2)
        = .ok s1 ∧
      (substr memTests 18 ⟨1, 3, default_predicate⟩ (1 + 1) 0 >>= fun w =>
        filtered_string_view.to_string memTests w) = .ok s1 ∧
      ((1 : Int) < 2 ^ 31 → (1 : Int) < 2 ^ 31 →
        (substr memTests 18 ⟨1, 3, default_predicate⟩ (wrap32 (1 + 1)) 0 >>= fun w =>
          filtered_string_view.to_string memTests w) = .ok s1) ∧
      (((filteredSeq ⟨1, 3, default_predicate⟩ ['c', 'a', 't']).length : Int) < 2 ^ 31 →
        s1 = (filteredSeq ⟨1, 3, default_predicate⟩ ['c', 'a', 't']).drop ((1 : Int) + 1).toNat) :=
  ⟨by decide, fun _ => by decide, by decide, by decide,
   substr_of_substr_is_substr memTests 18 ⟨1, 3, default_predicate⟩ ['c', 'a', 't']
     (by decide) (fun _ => by decide) (by decide) (by decide) 1 1 (by decide) (by decide)⟩

/-! ## The views that `split` returns -/

theorem bind_ok {ε α β : Type} (x : Except ε α) (f : α → Except ε β) (b : β)
    (h : (x >>= f) = .ok b) : ∃ a, x = .ok a ∧ f a = .ok b := by
  cases x with
  | error e => simp at h
  | ok a => exact ⟨a, rfl, h⟩

/-- The end of the two "no further match" branches of `split`: the trailing
view, when one is pushed, is the view of the literal `""`. -/
theorem split_trailing_views (m : Mem) (empty_literal : Nat) (pred : filter)
    (tok_begin tok_end : iter) (c : Bool) (result1 ws : List filtered_string_view)
    (hlit : deref m empty_literal = .ok ⟨empty_literal, NUL⟩)
    (h : (if c = true then do
            let d ← distance m tok_begin tok_end
            if d > 0 then do
              let e ← filtered_string_view.of_cstr m empty_literal pred
              pure (result1 ++ [e])
            else pure result1
          else pure result1) = .ok ws)
    (hres : ∀ w ∈ result1, w.data_ = local_string_data m ∨ w.size_ = 0) :
    ∀ w ∈ ws, w.data_ = local_string_data m ∨ w.size_ = 0 := by
  split at h
  · obtain ⟨d, _, h⟩ := bind_ok _ _ _ h
    split at h
    · rw [of_cstr_literal m empty_literal pred hlit] at h
      simp only [ok_bind, pure_eq_ok, Except.ok.injEq] at h
      subst h
      intro w hw
      rcases List.mem_append.mp hw with hw | hw
      · exact hres w hw
      · simp only [List.mem_singleton] at hw
        subst hw
        exact Or.inr rfl
    · simp only [pure_eq_ok, Except.ok.injEq] at h
      subst h
      exact hres
  · simp only [pure_eq_ok, Except.ok.injEq] at h
    subst h
    exact hres

/-- Every view that `split` returns is built over a string local to `split`, or
has raw length 0. -/
theorem splitLoop_views (m : Mem) (empty_literal : Nat) (fsv : filtered_string_view)
    (tok_begin tok_end end1 : iter)
    (hlit : deref m empty_literal = .ok ⟨empty_literal, NUL⟩) :
    ∀ (fuel : Nat) (start it : iter) (result ws : List filtered_string_view),
      splitLoop m empty_literal fsv tok_begin tok_end end1 fuel start it result = .ok ws →
      (∀ w ∈ result, w.data_ = local_string_data m ∨ w.size_ = 0) →
      ∀ w ∈ ws, w.data_ = local_string_data m ∨ w.size_ = 0 := by
  intro fuel
  induction fuel with
  | zero =>
    intro start it result ws h
    simp [splitLoop] at h
  | succ k ih =>
    intro start it result ws h hres
    have hpush : ∀ n : Nat, ∀ w ∈ result ++
        [filtered_string_view.of_string (local_string_data m) n fsv.predicate],
        w.data_ = local_string_data m ∨ w.size_ = 0 := by
      intro n w hw
      rcases List.mem_append.mp hw with hw | hw
      · exact hres w hw
      · simp only [List.mem_singleton] at hw
        subst hw
        exact Or.inl rfl
    simp only [splitLoop] at h
    split at h
    · simp only [pure_eq_ok, Except.ok.injEq] at h
      subst h
      exact hres
    · obtain ⟨match_, _, h⟩ := bind_ok _ _ _ h
      split at h
      · obtain ⟨fsv_str, _, h⟩ := bind_ok _ _ _ h
        exact split_trailing_views m empty_literal fsv.predicate tok_begin tok_end _ _ ws hlit h
          (hpush fsv_str.length)
      · split at h
        · obtain ⟨fsv_str, _, h⟩ := bind_ok _ _ _ h
          exact split_trailing_views m empty_literal fsv.predicate tok_begin tok_end _ _ ws hlit h
            (hpush fsv_str.length)
        · obtain ⟨fsv_str2, _, h⟩ := bind_ok _ _ _ h
          obtain ⟨d, _, h⟩ := bind_ok _ _ _ h
          obtain ⟨it1, _, h⟩ := bind_ok _ _ _ h
          obtain ⟨d1, _, h⟩ := bind_ok _ _ _ h
          obtain ⟨start1, _, h⟩ := bind_ok _ _ _ h
          exact ih start1 it1 _ ws h (hpush fsv_str2.length)

theorem split_views (m : Mem) (empty_literal fuel : Nat) (fsv tok : filtered_string_view)
    (ws : List filtered_string_view)
    (hlit : deref m empty_literal = .ok ⟨empty_literal, NUL⟩)
    (h : split m empty_literal fuel fsv tok = .ok ws) :
    ∀ w ∈ ws, w.data_ = local_string_data m ∨ w.size_ = 0 := by
  simp only [split] at h
  obtain ⟨start, _, h⟩ := bind_ok _ _ _ h
  obtain ⟨end1, _, h⟩ := bind_ok _ _ _ h
  obtain ⟨tok_begin, _, h⟩ := bind_ok _ _ _ h
  obtain ⟨it, _, h⟩ := bind_ok _ _ _ h
  exact splitLoop_views m empty_literal fsv tok_begin tok.end_ end1 hlit fuel start it [] ws h
    (by simp)

/-- In the memory that `split` leaves, a view over one of its local strings
has no cell to read: its string conversion is empty when the raw length is 0
and undefined otherwise. -/
theorem to_string_local (m : Mem) (w : filtered_string_view)
    (h : w.data_ = local_string_data m ∨ w.size_ = 0) :
    filtered_string_view.to_string m w = .ok [] ∨
      filtered_string_view.to_string m w = .error .undefined := by
  cases hsz : w.size_ with
  | zero =>
    left
    simp [filtered_string_view.to_string, hsz, filtered_string_view.pushLoop]
  | succ n =>
    right
    have hd : w.data_ = local_string_data m := by
      rcases h with h | h
      · exact h
      · omega
    have hderef : deref m (w.data_ + 0) = .error .undefined := by
      have hnone : m[m.length + 1]? = none := List.getElem?_eq_none (by omega)
      simp [deref, hd, local_string_data, hnone]
    simp only [filtered_string_view.to_string, hsz, filtered_string_view.pushLoop, hderef,
      error_bind]

/-! ## Termination of `split` on a token with an accepted character -/

theorem searchProbe_spec (m : Mem) (pred predT pred1 pred2 : filter) (e eT : Nat) :
    ∀ (G F : List CharRef) (p pT fuel : Nat), Facing m pred e p F → Facing m predT eT pT G →
      G.length + 1 ≤ fuel →
      searchProbe m ⟨e, pred1⟩ ⟨eT, pred2⟩ fuel ⟨p, pred⟩ ⟨pT, predT⟩
        = .ok (probeOutcome F G) := by
  intro G
  induction G with
  | nil =>
    intro F p pT fuel _ hG hf
    obtain ⟨k, rfl⟩ : ∃ k, fuel = k + 1 := ⟨fuel - 1, by simp at hf; omega⟩
    have := facing_nil m predT eT pT hG
    simp [searchProbe, iter.eq, this, probeOutcome]
  | cons g G1 ih =>
    intro F p pT fuel hF hG hf
    obtain ⟨k, rfl⟩ : ∃ k, fuel = k + 1 := ⟨fuel - 1, by simp at hf; omega⟩
    obtain ⟨_, hdT, hltT, pT1, hincT, _, hG1⟩ := facing_cons m predT eT pT g G1 hG
    have hneT : ¬ pT = eT := by omega
    cases F with
    | nil =>
      have := facing_nil m pred e p hF
      simp [searchProbe, iter.eq, hneT, this, probeOutcome]
    | cons f F1 =>
      obtain ⟨_, hd, hlt, p1, hinc, _, hF1⟩ := facing_cons m pred e p f F1 hF
      have hne : ¬ p = e := by omega
      have hrec := ih F1 p1 pT1 k hF1 hG1 (by simp at hf; omega)
      by_cases hv : f.val = g.val
      · simp [searchProbe, iter.eq, hneT, hne, iter.star, hd, hdT, hv, hinc, hincT, hrec,
          probeOutcome]
      · simp [searchProbe, iter.eq, hneT, hne, iter.star, hd, hdT, hv, probeOutcome]

theorem probeOutcome_found (G : List CharRef) :
    ∀ F : List CharRef, probeOutcome F G = .found → G.length ≤ F.length := by
  induction G with
  | nil => intro F _; simp
  | cons g G1 ih =>
    intro F h
    cases F with
    | nil => simp [probeOutcome] at h
    | cons f F1 =>
      by_cases hv : f.val = g.val
      · simp only [probeOutcome, hv, ne_eq, not_true_eq_false, if_false] at h
        have := ih F1 h
        simp only [List.length_cons]
        omega
      · simp [probeOutcome, hv] at h

theorem probeOutcome_mismatch (F G : List CharRef) (h : probeOutcome F G = .mismatch) :
    F ≠ [] := by
  intro hF
  subst hF
  cases G with
  | nil => simp [probeOutcome] at h
  | cons g G1 => simp [probeOutcome] at h

/-- Source: `std::search` from an iterator of the view to its end: it returns an
iterator `j` accepted characters further on, with the whole token in front of
it unless it is the end. -/
theorem searchLoop_spec (m : Mem) (pred predT pred2 : filter) (e eT pT : Nat)
    (G : List CharRef) (hG : Facing m predT eT pT G) :
    ∀ (F : List CharRef) (p fuel : Nat), Facing m pred e p F → F.length + 1 ≤ fuel →
      ∃ q j, searchLoop m ⟨e, pred⟩ ⟨pT, predT⟩ ⟨eT, pred2⟩ fuel ⟨p, pred⟩ = .ok ⟨q, pred⟩ ∧
        j ≤ F.length ∧ advanceForward m j ⟨p, pred⟩ = .ok ⟨q, pred⟩ ∧
        Facing m pred e q (F.drop j) ∧ (q ≠ e → G.length ≤ F.length - j) := by
  have hGb := (facing_bound m predT eT pT G hG).1
  intro F
  induction F with
  | nil =>
    intro p fuel hF hf
    obtain ⟨k, rfl⟩ : ∃ k, fuel = k + 1 := ⟨fuel - 1, by simp at hf; omega⟩
    have hprobe := searchProbe_spec m pred predT pred pred2 e eT G [] p pT (m.length + 1) hF hG
      (by omega)
    have hpe := facing_nil m pred e p hF
    refine ⟨p, 0, ?_, le_refl _, rfl, by simpa using hF, fun hq => absurd hpe hq⟩
    simp only [searchLoop, hprobe, ok_bind]
    cases hp : probeOutcome [] G with
    | found => rfl
    | exhausted => simp [hpe]
    | mismatch => exact absurd rfl (probeOutcome_mismatch [] G hp)
  | cons f F1 ih =>
    intro p fuel hF hf
    obtain ⟨k, rfl⟩ : ∃ k, fuel = k + 1 := ⟨fuel - 1, by simp at hf; omega⟩
    have hprobe := searchProbe_spec m pred predT pred pred2 e eT G (f :: F1) p pT (m.length + 1)
      hF hG (by omega)
    simp only [searchLoop, hprobe, ok_bind]
    cases hp : probeOutcome (f :: F1) G with
    | found =>
      refine ⟨p, 0, rfl, Nat.zero_le _, rfl, by simpa using hF, fun _ => ?_⟩
      simpa using probeOutcome_found G (f :: F1) hp
    | exhausted =>
      obtain ⟨p1, hadv, _, hF1, _⟩ :=
        advanceForward_spec m pred e (f :: F1).length p (f :: F1) hF (le_refl _)
      have hp1 : p1 = e := facing_nil m pred e p1 (by simpa using hF1)
      subst hp1
      exact ⟨p1, (f :: F1).length, rfl, le_refl _, hadv, by simpa using hF1,
        fun hq => absurd rfl hq⟩
    | mismatch =>
      obtain ⟨_, _, _, p1, hinc, _, hF1⟩ := facing_cons m pred e p f F1 hF
      obtain ⟨q, j, hs, hj, hadv, hFq, hlen⟩ := ih p1 k hF1 (by simp at hf; omega)
      refine ⟨q, j + 1, ?_, by simp; omega, ?_, by simpa using hFq, ?_⟩
      · simp only [hinc, ok_bind]
        exact hs
      · simp only [advanceForward, hinc, ok_bind]
        exact hadv
      · intro hq
        have := hlen hq
        simp only [List.length_cons]
        omega

/-- The loop `for (auto i = first; i != last; i++) str += *i;` up to an iterator
that `j` increments reach. -/
theorem appendRange_until (m : Mem) (pred pred1 : filter) (e : Nat) :
    ∀ (j : Nat) (F : List CharRef) (p q fuel : Nat) (str : List Char), Facing m pred e p F →
      j ≤ F.length → advanceForward m j ⟨p, pred⟩ = .ok ⟨q, pred⟩ → j + 1 ≤ fuel →
      appendRange m ⟨q, pred1⟩ fuel ⟨p, pred⟩ str
        = .ok (str ++ (F.take j).map CharRef.val) := by
  intro j
  induction j with
  | zero =>
    intro F p q fuel str _ _ hadv hf
    obtain ⟨k, rfl⟩ : ∃ k, fuel = k + 1 := ⟨fuel - 1, by omega⟩
    simp only [advanceForward, pure_eq_ok, Except.ok.injEq, iter.mk.injEq] at hadv
    simp [appendRange, iter.eq, hadv.1]
  | succ j ih =>
    intro F p q fuel str hF hj hadv hf
    obtain ⟨k, rfl⟩ : ∃ k, fuel = k + 1 := ⟨fuel - 1, by omega⟩
    cases F with
    | nil => simp at hj
    | cons r F1 =>
      obtain ⟨_, hd, _, p1, hinc, hlt, hF1⟩ := facing_cons m pred e p r F1 hF
      simp only [advanceForward, hinc, ok_bind] at hadv
      obtain ⟨p2, hadv2, hle, _, _⟩ :=
        advanceForward_spec m pred e j p1 F1 hF1 (by simpa using hj)
      rw [hadv] at hadv2
      simp only [Except.ok.injEq, iter.mk.injEq, and_true] at hadv2
      have hne : ¬ p = q := by omega
      have := ih F1 p1 q k (str ++ [r.val]) hF1 (by simpa using hj) hadv (by omega)
      simp [appendRange, iter.eq, hne, iter.star, hd, hinc, this]

/-- The end of the two "no further match" branches of `split` returns. -/
theorem split_trailing_returns (m : Mem) (empty_literal : Nat) (pred predT pred2 : filter)
    (eT pT : Nat) (G : List CharRef) (hG : Facing m predT eT pT G) (c : Bool)
    (result1 : List filtered_string_view)
    (hlit : deref m empty_literal = .ok ⟨empty_literal, NUL⟩) :
    ∃ ws, (if c = true then do
            let d ← distance m ⟨pT, predT⟩ ⟨eT, pred2⟩
            if d > 0 then do
              let e ← filtered_string_view.of_cstr m empty_literal pred
              pure (result1 ++ [e])
            else pure result1
          else pure result1) = .ok ws := by
  have hGb := (facing_bound m predT eT pT G hG).1
  have hd : distance m ⟨pT, predT⟩ ⟨eT, pred2⟩ = .ok (0 + G.length) :=
    distanceLoop_spec m predT pred2 eT G pT (m.length + 1) 0 hG (by omega)
  split
  · rw [hd, ok_bind]
    split
    · rw [of_cstr_literal m empty_literal pred hlit]
      exact ⟨_, rfl⟩
    · exact ⟨_, rfl⟩
  · exact ⟨_, rfl⟩

/-- The loop of `split` returns when the token has an accepted character: every
iteration that does not return moves past a whole token. -/
theorem splitLoop_returns (m : Mem) (empty_literal : Nat) (fsv : filtered_string_view)
    (predT pred2 : filter) (eT pT : Nat) (G : List CharRef) (hG : Facing m predT eT pT G)
    (hGne : G ≠ []) (end1 : iter)
    (hlit : deref m empty_literal = .ok ⟨empty_literal, NUL⟩) :
    ∀ (fuel : Nat) (F : List CharRef) (p : Nat) (result : List filtered_string_view),
      Facing m fsv.pred_ (fsv.data_ + fsv.size_) p F → F.length + 1 ≤ fuel →
      ∃ ws, splitLoop m empty_literal fsv ⟨pT, predT⟩ ⟨eT, pred2⟩ end1 fuel
        ⟨p, fsv.pred_⟩ ⟨p, fsv.pred_⟩ result = .ok ws := by
  have hGb := (facing_bound m predT eT pT G hG).1
  have hGpos : 0 < G.length := List.length_pos.mpr hGne
  have hd : distance m ⟨pT, predT⟩ ⟨eT, pred2⟩ = .ok (0 + G.length) :=
    distanceLoop_spec m predT pred2 eT G pT (m.length + 1) 0 hG (by omega)
  intro fuel
  induction fuel with
  | zero => intro F p result _ hf; omega
  | succ k ih =>
    intro F p result hF hf
    have hFb := (facing_bound m fsv.pred_ _ p F hF).1
    simp only [splitLoop, filtered_string_view.end_, iter.eq, decide_eq_true_eq]
    by_cases hpe : p = fsv.data_ + fsv.size_
    · rw [if_pos hpe]
      exact ⟨_, rfl⟩
    · rw [if_neg hpe]
      obtain ⟨q, j, hs, hj, hadv, hFq, hlen⟩ :=
        searchLoop_spec m fsv.pred_ predT pred2 (fsv.data_ + fsv.size_) eT pT G hG F p
          (m.length + 1) hF (by omega)
      simp only [search, hs, ok_bind]
      have hupto : ∀ pred1 : filter, appendRange m ⟨q, pred1⟩ (m.length + 1) ⟨p, fsv.pred_⟩ []
          = .ok ([] ++ (F.take j).map CharRef.val) :=
        fun pred1 => appendRange_until m fsv.pred_ pred1 _ j F p q (m.length + 1) [] hF hj hadv
          (by omega)
      by_cases hqe : q = fsv.data_ + fsv.size_
      · rw [if_pos hqe, ← hqe, hupto, ok_bind]
        exact split_trailing_returns m empty_literal _ predT pred2 eT pT G hG _ _ hlit
      · rw [if_neg hqe]
        by_cases hq1 : q = end1.pc_
        · rw [if_pos hq1]
          have h1 : end1 = ⟨q, end1.pred_⟩ := by rw [hq1]
          rw [h1, hupto, ok_bind]
          exact split_trailing_returns m empty_literal _ predT pred2 eT pT G hG _ _ hlit
        · rw [if_neg hq1, hupto, ok_bind, hd, ok_bind]
          obtain ⟨p2, hadv2, _, hF2, _⟩ :=
            advanceForward_spec m fsv.pred_ _ G.length q (F.drop j) hFq
              (by rw [List.length_drop]; exact hlen hqe)
          have hstep : advance m ⟨q, fsv.pred_⟩ ((0 + G.length : Nat) : Int)
              = .ok ⟨p2, fsv.pred_⟩ := by
            simp only [advance]
            rw [if_pos (by omega)]
            simpa using hadv2
          simp only [hstep, ok_bind]
          have hlen2 := hlen hqe
          exact ih ((F.drop j).drop G.length) p2 _ hF2
            (by rw [List.length_drop, List.length_drop]; omega)

/-- Source: `split` returns on a view and a token that each have an accepted character,
whose buffers are followed by the terminator and accept every `'\0'` they hold,
when the loop is given one iteration more than the view has accepted
characters. -/
theorem split_returns (m : Mem) (empty_literal fuel : Nat) (V T : filtered_string_view)
    (B Bt : List Char) (hV : Terminated m V B) (hVn : NulAccepted V B)
    (hT : Terminated m T Bt) (hTn : NulAccepted T Bt)
    (hFne : filteredRefs V B ≠ []) (hGne : filteredRefs T Bt ≠ [])
    (hlit : deref m empty_literal = .ok ⟨empty_literal, NUL⟩)
    (hfuel : (filteredRefs V B).length + 1 ≤ fuel) :
    ∃ ws, split m empty_literal fuel V T = .ok ws := by
  obtain ⟨p, hbeg, _, hF⟩ := begin_facing m V B hV hVn
  obtain ⟨pT, hbegT, _, hG⟩ := begin_facing m T Bt hT hTn
  obtain ⟨F0, r, hlast⟩ : ∃ F0 r, filteredRefs V B = F0 ++ [r] :=
    ⟨_, _, (List.dropLast_append_getLast hFne).symm⟩
  have hbehind := end_behind m V B hV hVn
  rw [hlast] at hbehind
  obtain ⟨hdec, _⟩ := behind_snoc m V.pred_ V.data_ _ F0 r hbehind
  simp only [split, hbeg, ok_bind, filtered_string_view.end_, hdec, hbegT]
  exact splitLoop_returns m empty_literal V T.pred_ T.pred_ _ pT _ hG hGne _ hlit fuel _ p []
    hF hfuel

/-! ## Claim on the segments of `split` -/

end fsv
